import Mathlib

/-!
Verification of the two desktop HTTP utilities in this repository
(`ZadniProjekt/main.py`, the API-key validator, and `ZadniProjekt/temp.py`,
the generic API tester) against their natural-language specification.

The development shallowly embeds the Python code:

* Python strings are modelled as `String` / `List Char` (Unicode scalar
  sequences), machine-level bytes as `Nat` values below 256.
* The `urllib.parse` functions used by `make_api_request`
  (`urlparse`, `parse_qs`, `urlencode` with `doseq=True`, `urlunparse`,
  and their helpers `quote_plus` / `unquote`) are embedded following the
  CPython 3.11 implementation.
* The network and the JSON parser are oracles: a request yields either a
  raised `requests` exception or a response carrying a status code, reason
  phrase, raw body text, and the body's JSON parse (`none` when the body
  is not JSON, which in Python surfaces as `json.JSONDecodeError`).
* Exceptions are modelled as control flow: each `try`/`except` block of the
  source becomes a `match` on the outcome of the embedded fallible steps.
-/

/-! ### Basic character-list helpers -/

abbrev Chars := List Char

/-- `leadsWith p s` is true when `p` is a leading segment of `s`. -/
def leadsWith : Chars → Chars → Bool
  | [], _ => true
  | _ :: _, [] => false
  | p :: ps, c :: cs => p == c && leadsWith ps cs

/-- Python's substring test `needle in hay` (contiguous occurrence). -/
def occursIn (needle : Chars) : Chars → Bool
  | [] => needle.isEmpty
  | c :: t => leadsWith needle (c :: t) || occursIn needle t

/-- Python `needle in hay` on strings. -/
def pyIn (needle hay : String) : Bool :=
  occursIn needle.toList hay.toList

/-- Split at the first occurrence of `sep`: `some (before, after)`, or
`none` when `sep` does not occur.  Models `str.split(sep, 1)` /
`str.find(sep)`. -/
def splitFirst (sep : Char) : Chars → Option (Chars × Chars)
  | [] => none
  | c :: cs =>
    if c = sep then some ([], cs)
    else (splitFirst sep cs).map (fun p => (c :: p.1, p.2))

/-- The part of `l` before the first occurrence of `sep` (all of `l` when
`sep` does not occur). -/
def beforeFirst (sep : Char) (l : Chars) : Chars :=
  match splitFirst sep l with
  | some p => p.1
  | none => l

theorem splitFirst_eq_none {sep : Char} {l : Chars} (h : sep ∉ l) :
    splitFirst sep l = none := by
  induction l with
  | nil => rfl
  | cons c cs ih =>
    simp only [splitFirst]
    rw [if_neg, ih]
    · rfl
    · intro hm; exact h (List.mem_cons_of_mem _ hm)
    · intro hc; exact h (hc ▸ List.mem_cons_self _ _)

theorem splitFirst_append {sep : Char} {a : Chars} (b : Chars) (h : sep ∉ a) :
    splitFirst sep (a ++ sep :: b) = some (a, b) := by
  induction a with
  | nil => simp [splitFirst]
  | cons c cs ih =>
    simp only [List.cons_append, splitFirst]
    rw [if_neg]
    · show Option.map (fun p => (c :: p.1, p.2)) (splitFirst sep (cs ++ sep :: b)) = _
      rw [ih (fun hm => h (List.mem_cons_of_mem _ hm))]
      rfl
    · intro hc; exact h (hc ▸ List.mem_cons_self _ _)

theorem beforeFirst_of_not_mem {sep : Char} {l : Chars} (h : sep ∉ l) :
    beforeFirst sep l = l := by
  simp [beforeFirst, splitFirst_eq_none h]

theorem beforeFirst_append {sep : Char} {a : Chars} (b : Chars) (h : sep ∉ a) :
    beforeFirst sep (a ++ sep :: b) = a := by
  simp [beforeFirst, splitFirst_append b h]

/-! ### UTF-8 encoding and decoding

`quote_plus` percent-encodes the UTF-8 bytes of a string and `unquote`
decodes percent-escapes back through `bytes.decode('utf-8', 'replace')`.
The decoder below follows the "maximal subpart" replacement policy of
CPython's UTF-8 decoder: every maximal prefix of a valid sequence that is
not completed is replaced by one U+FFFD. -/

/-- UTF-8 encoding of a Unicode scalar value (a `Char`), as bytes. -/
def utf8EncodeChar (c : Char) : List Nat :=
  let v := c.toNat
  if v < 0x80 then [v]
  else if v < 0x800 then [0xC0 + v / 64, 0x80 + v % 64]
  else if v < 0x10000 then
    [0xE0 + v / 4096, 0x80 + (v / 64) % 64, 0x80 + v % 64]
  else
    [0xF0 + v / 262144, 0x80 + (v / 4096) % 64, 0x80 + (v / 64) % 64, 0x80 + v % 64]


/-- U+FFFD REPLACEMENT CHARACTER. -/
def replChar : Char := Char.ofNat 0xFFFD


theorem toNat_ofNat_of_valid {n : Nat} (h : n.isValidChar) :
    (Char.ofNat n).toNat = n := by
  simp [Char.ofNat, h, Char.ofNatAux, Char.toNat, UInt32.toNat, BitVec.toNat_ofNatLt]

theorem char_valid (c : Char) : c.toNat < 0xD800 ∨ (0xDFFF < c.toNat ∧ c.toNat < 0x110000) := by
  have h := c.valid
  rcases h with h | h
  · left
    exact h
  · right
    exact h


/-! ### Percent-encoding: `quote_plus` and `unquote`

`urlencode(..., doseq=True)` quotes keys and values with
`quote_plus(s, safe='')`: each UTF-8 byte that is not in `_ALWAYS_SAFE`
becomes `%XX` (uppercase), a space becomes `+`.  `parse_qsl` reverses this
with `value.replace('+', ' ')` followed by `unquote`, which decodes runs
of `%XX` escapes as bytes and UTF-8-decodes them with `errors='replace'`. -/

/-- CPython's `_ALWAYS_SAFE` byte set: ASCII alphanumerics and `_.-~`. -/
def alwaysSafe (b : Nat) : Bool :=
  (65 ≤ b && b ≤ 90) || (97 ≤ b && b ≤ 122) || (48 ≤ b && b ≤ 57) ||
    b == 95 || b == 46 || b == 45 || b == 126

/-- Uppercase hexadecimal digit, as used by `'%{:02X}'.format(b)`. -/
def hexChar (n : Nat) : Char :=
  if n < 10 then Char.ofNat (48 + n) else Char.ofNat (55 + n)

/-- Hex digits accepted by `unquote` (`_hextobyte` allows both cases). -/
def isHexDigitChar (c : Char) : Bool :=
  (48 ≤ c.toNat && c.toNat ≤ 57) || (65 ≤ c.toNat && c.toNat ≤ 70) ||
    (97 ≤ c.toNat && c.toNat ≤ 102)

/-- Value of a hex digit (both cases). -/
def hexVal (c : Char) : Nat :=
  if c.toNat ≤ 57 then c.toNat - 48
  else if c.toNat ≤ 70 then c.toNat - 55
  else c.toNat - 87

/-- `quote_plus` on one byte: safe bytes stay, a space becomes `+`, any
other byte becomes `%XX`. -/
def quoteByte (b : Nat) : Chars :=
  if alwaysSafe b then [Char.ofNat b]
  else if b = 32 then ['+']
  else ['%', hexChar (b / 16), hexChar (b % 16)]

/-- `quote_plus` on one character (via its UTF-8 bytes). -/
def quoteChar (c : Char) : Chars :=
  (utf8EncodeChar c).flatMap quoteByte

/-- `urllib.parse.quote_plus(s, safe='')` on character lists. -/
def quote_plus (s : Chars) : Chars :=
  s.flatMap quoteChar

/-- The `%XX` escape sequence of each byte of `bs`. -/
def hexTriples (bs : List Nat) : Chars :=
  bs.flatMap (fun b => ['%', hexChar (b / 16), hexChar (b % 16)])

/-- `str.replace('+', ' ')`, the first step of `parse_qsl`'s decoding. -/
def plusToSpace (l : Chars) : Chars :=
  l.map (fun c => if c = '+' then ' ' else c)


/-- The lexical pass of `urllib.parse.unquote`: a `%` followed by two hex
digits stands for a byte, any other character is literal. -/
def unquoteTokens : Chars → List (Sum Char Nat)
  | [] => []
  | c :: h1 :: h2 :: rest =>
    if c = '%' ∧ isHexDigitChar h1 ∧ isHexDigitChar h2 then
      Sum.inr (16 * hexVal h1 + hexVal h2) :: unquoteTokens rest
    else Sum.inl c :: unquoteTokens (h1 :: h2 :: rest)
  | c :: rest => Sum.inl c :: unquoteTokens rest

/-- Streaming UTF-8 decoding of `unquote`'s tokens with `errors='replace'`.
The state `some (acc, need, lo, hi)` is a pending multi-byte sequence:
accumulated value, continuation bytes still needed, and the range allowed
for the next byte (restricted after `E0`/`ED`/`F0`/`F4` lead bytes, which
excludes overlong and surrogate encodings).  Each maximal invalid subpart
yields one U+FFFD, as CPython's decoder does; a literal character flushes
a pending sequence exactly as the end of a percent-run would. -/
def decodeTokens : Option (Nat × Nat × Nat × Nat) → List (Sum Char Nat) → List Char
  | none, [] => []
  | some _, [] => [replChar]
  | none, Sum.inl c :: ts => c :: decodeTokens none ts
  | some _, Sum.inl c :: ts => replChar :: c :: decodeTokens none ts
  | none, Sum.inr b :: ts =>
    if b < 0x80 then Char.ofNat b :: decodeTokens none ts
    else if b < 0xC2 then replChar :: decodeTokens none ts
    else if b < 0xE0 then decodeTokens (some (b - 0xC0, 1, 0x80, 0xBF)) ts
    else if b < 0xF0 then
      decodeTokens (some (b - 0xE0, 2, if b = 0xE0 then 0xA0 else 0x80,
        if b = 0xED then 0x9F else 0xBF)) ts
    else if b < 0xF5 then
      decodeTokens (some (b - 0xF0, 3, if b = 0xF0 then 0x90 else 0x80,
        if b = 0xF4 then 0x8F else 0xBF)) ts
    else replChar :: decodeTokens none ts
  | some (acc, need, lo, hi), Sum.inr b :: ts =>
    if lo ≤ b ∧ b ≤ hi then
      if need = 1 then Char.ofNat (acc * 64 + (b - 0x80)) :: decodeTokens none ts
      else decodeTokens (some (acc * 64 + (b - 0x80), need - 1, 0x80, 0xBF)) ts
    else
      replChar ::
        (if b < 0x80 then Char.ofNat b :: decodeTokens none ts
        else if b < 0xC2 then replChar :: decodeTokens none ts
        else if b < 0xE0 then decodeTokens (some (b - 0xC0, 1, 0x80, 0xBF)) ts
        else if b < 0xF0 then
          decodeTokens (some (b - 0xE0, 2, if b = 0xE0 then 0xA0 else 0x80,
            if b = 0xED then 0x9F else 0xBF)) ts
        else if b < 0xF5 then
          decodeTokens (some (b - 0xF0, 3, if b = 0xF0 then 0x90 else 0x80,
            if b = 0xF4 then 0x8F else 0xBF)) ts
        else replChar :: decodeTokens none ts)

/-- `urllib.parse.unquote(s)` with UTF-8/replace decoding of percent-runs. -/
def pyUnquote (l : Chars) : Chars :=
  decodeTokens none (unquoteTokens l)


/-! ### Round trip of `quote_plus` through `+`-replacement and `unquote` -/

theorem alwaysSafe_lt {b : Nat} (h : alwaysSafe b = true) : b < 127 := by
  simp [alwaysSafe] at h
  omega

theorem alwaysSafe_false_of_ge {b : Nat} (h : 127 ≤ b) : alwaysSafe b = false := by
  simp [alwaysSafe]
  omega

theorem toNat_ofNat_small {b : Nat} (h : b < 0xD800) : (Char.ofNat b).toNat = b :=
  toNat_ofNat_of_valid (Or.inl h)

theorem hexChar_hex : ∀ n, n < 16 → isHexDigitChar (hexChar n) = true := by decide

theorem hexVal_hexChar : ∀ n, n < 16 → hexVal (hexChar n) = n := by decide

theorem hexChar_ne_plus : ∀ n, n < 16 → hexChar n ≠ '+' := by decide

theorem hexChar_safe : ∀ n, n < 16 → alwaysSafe (hexChar n).toNat = true := by decide

theorem utf8EncodeChar_ascii {c : Char} (h : c.toNat < 0x80) : utf8EncodeChar c = [c.toNat] := by
  simp [utf8EncodeChar, h]

theorem utf8EncodeChar_lt (c : Char) : ∀ b ∈ utf8EncodeChar c, b < 256 := by
  have hv := char_valid c
  intro b hb
  by_cases h1 : c.toNat < 0x80
  · simp [utf8EncodeChar, h1] at hb
    omega
  · by_cases h2 : c.toNat < 0x800
    · simp [utf8EncodeChar, h1, h2] at hb
      rcases hb with hb | hb <;> omega
    · by_cases h3 : c.toNat < 0x10000
      · simp [utf8EncodeChar, h1, h2, h3] at hb
        rcases hb with hb | hb | hb <;> omega
      · simp [utf8EncodeChar, h1, h2, h3] at hb
        rcases hb with hb | hb | hb | hb <;> omega

theorem utf8EncodeChar_hi {c : Char} (h : ¬ c.toNat < 0x80) :
    ∀ b ∈ utf8EncodeChar c, 0x80 ≤ b := by
  have hv := char_valid c
  intro b hb
  by_cases h2 : c.toNat < 0x800
  · simp [utf8EncodeChar, h, h2] at hb
    rcases hb with hb | hb <;> omega
  · by_cases h3 : c.toNat < 0x10000
    · simp [utf8EncodeChar, h, h2, h3] at hb
      rcases hb with hb | hb | hb <;> omega
    · simp [utf8EncodeChar, h, h2, h3] at hb
      rcases hb with hb | hb | hb | hb <;> omega

theorem quote_plus_nil : quote_plus [] = [] := rfl

theorem quote_plus_cons (c : Char) (t : Chars) :
    quote_plus (c :: t) = quoteChar c ++ quote_plus t := by
  simp [quote_plus]

theorem quoteChar_safe {c : Char} (h : alwaysSafe c.toNat = true) : quoteChar c = [c] := by
  have hlt : c.toNat < 0x80 := by
    have := alwaysSafe_lt h
    omega
  simp [quoteChar, utf8EncodeChar_ascii hlt, quoteByte, h, Char.ofNat_toNat]

theorem quoteChar_space : quoteChar ' ' = ['+'] := by decide

theorem toNat_ne_of_ne {c d : Char} (h : c ≠ d) : c.toNat ≠ d.toNat := by
  intro he
  apply h
  have h1 := Char.ofNat_toNat c
  have h2 := Char.ofNat_toNat d
  rw [← h1, ← h2, he]

theorem flatMap_congr_mem {α β : Type} {l : List α} {f g : α → List β}
    (h : ∀ a ∈ l, f a = g a) : l.flatMap f = l.flatMap g := by
  induction l with
  | nil => rfl
  | cons a t ih =>
    simp only [List.flatMap_cons]
    rw [h a (List.mem_cons_self _ _), ih (fun a ha => h a (List.mem_cons_of_mem _ ha))]

theorem hexTriples_cons (b : Nat) (bs : List Nat) :
    hexTriples (b :: bs) = '%' :: hexChar (b / 16) :: hexChar (b % 16) :: hexTriples bs := by
  simp [hexTriples]

theorem quoteChar_not_safe {c : Char} (h1 : alwaysSafe c.toNat = false) (h2 : c ≠ ' ') :
    quoteChar c = hexTriples (utf8EncodeChar c) := by
  have key : ∀ b ∈ utf8EncodeChar c, quoteByte b = ['%', hexChar (b / 16), hexChar (b % 16)] := by
    intro b hb
    by_cases hc : c.toNat < 0x80
    · rw [utf8EncodeChar_ascii hc] at hb
      simp at hb
      subst hb
      have hns : c.toNat ≠ 32 := toNat_ne_of_ne h2
      simp [quoteByte, h1, hns]
    · have hhi := utf8EncodeChar_hi hc b hb
      have hne : ¬ b = 32 := by omega
      simp [quoteByte, alwaysSafe_false_of_ge (by omega : 127 ≤ b), hne]
  simp only [quoteChar, hexTriples]
  exact flatMap_congr_mem key

theorem mem_quote_plus {s : Chars} {x : Char} (hx : x ∈ quote_plus s) :
    x = '+' ∨ x = '%' ∨ alwaysSafe x.toNat = true := by
  simp only [quote_plus, List.mem_flatMap] at hx
  obtain ⟨c, _, hx⟩ := hx
  simp only [quoteChar, List.mem_flatMap] at hx
  obtain ⟨b, hb, hx⟩ := hx
  have hb256 := utf8EncodeChar_lt c b hb
  by_cases hs : alwaysSafe b = true
  · simp [quoteByte, hs] at hx
    subst hx
    right; right
    rw [toNat_ofNat_small (by omega)]
    exact hs
  · by_cases h32 : b = 32
    · subst h32
      rw [show quoteByte 32 = ['+'] from rfl] at hx
      simp at hx
      subst hx
      left; rfl
    · simp [quoteByte, hs, h32] at hx
      rcases hx with hx | hx | hx
      · right; left; exact hx
      · right; right
        subst hx
        exact hexChar_safe _ (by omega)
      · right; right
        subst hx
        exact hexChar_safe _ (by omega)

theorem plusToSpace_append (a b : Chars) :
    plusToSpace (a ++ b) = plusToSpace a ++ plusToSpace b := by
  simp [plusToSpace]

theorem plusToSpace_of_no_plus {l : Chars} (h : ∀ x ∈ l, x ≠ '+') : plusToSpace l = l := by
  simp only [plusToSpace]
  have : ∀ x ∈ l, (if x = '+' then ' ' else x) = id x := by
    intro x hx
    simp [h x hx]
  rw [List.map_congr_left this, List.map_id]

theorem plusToSpace_hexTriples {bs : List Nat} (h : ∀ b ∈ bs, b < 256) :
    plusToSpace (hexTriples bs) = hexTriples bs := by
  apply plusToSpace_of_no_plus
  intro x hx
  simp only [hexTriples, List.mem_flatMap] at hx
  obtain ⟨b, hb, hx⟩ := hx
  have hb256 := h b hb
  simp at hx
  rcases hx with hx | hx | hx
  · subst hx; decide
  · subst hx; exact hexChar_ne_plus _ (by omega)
  · subst hx; exact hexChar_ne_plus _ (by omega)


/-- Characters whose `quote_plus` image is a percent-escape run. -/
def unsafeChar (c : Char) : Bool :=
  !(alwaysSafe c.toNat) && !(c == ' ')

theorem unsafeChar_spec {c : Char} (h : unsafeChar c = true) :
    alwaysSafe c.toNat = false ∧ c ≠ ' ' := by
  simp [unsafeChar] at h
  exact h

theorem unsafeChar_spec_false {c : Char} (h : unsafeChar c = false) :
    alwaysSafe c.toNat = true ∨ c = ' ' := by
  simp [unsafeChar] at h
  by_cases hs : alwaysSafe c.toNat = true
  · left; exact hs
  · right
    exact h (by simpa using hs)

/-- How one source character appears in `unquote`'s token stream after
`quote_plus` and `+`-replacement: percent-encoded characters as their
UTF-8 bytes, everything else literally. -/
def tokenOfChar (c : Char) : List (Sum Char Nat) :=
  if unsafeChar c = true then (utf8EncodeChar c).map Sum.inr else [Sum.inl c]

theorem unquoteTokens_cons3 (c h1 h2 : Char) (rest : Chars) :
    unquoteTokens (c :: h1 :: h2 :: rest) =
      if c = '%' ∧ isHexDigitChar h1 ∧ isHexDigitChar h2 then
        Sum.inr (16 * hexVal h1 + hexVal h2) :: unquoteTokens rest
      else Sum.inl c :: unquoteTokens (h1 :: h2 :: rest) := rfl

theorem unquoteTokens_cons_ne {c : Char} (T : Chars) (hc : c ≠ '%') :
    unquoteTokens (c :: T) = Sum.inl c :: unquoteTokens T := by
  match T with
  | [] => rfl
  | [h1] => rfl
  | h1 :: h2 :: t =>
    rw [unquoteTokens_cons3, if_neg (fun h => hc h.1)]

theorem unquoteTokens_triples {bs : List Nat} (h : ∀ b ∈ bs, b < 256) (Q : Chars) :
    unquoteTokens (hexTriples bs ++ Q) = bs.map Sum.inr ++ unquoteTokens Q := by
  induction bs with
  | nil => simp [hexTriples]
  | cons b t ih =>
    have hb : b < 256 := h b (List.mem_cons_self _ _)
    rw [hexTriples_cons]
    simp only [List.cons_append, List.map_cons]
    rw [unquoteTokens_cons3]
    rw [if_pos ⟨rfl, hexChar_hex _ (by omega), hexChar_hex _ (by omega)⟩]
    rw [ih (fun x hx => h x (List.mem_cons_of_mem _ hx))]
    rw [hexVal_hexChar _ (by omega), hexVal_hexChar _ (by omega)]
    have hbv : 16 * (b / 16) + b % 16 = b := by omega
    rw [hbv]

/-- Tokenizing a quoted string yields each source character's tokens. -/
theorem unquoteTokens_quoted (s : Chars) :
    unquoteTokens (plusToSpace (quote_plus s)) = s.flatMap tokenOfChar := by
  induction s with
  | nil => simp [quote_plus, plusToSpace, unquoteTokens]
  | cons c t ih =>
    by_cases hc : unsafeChar c = true
    · obtain ⟨h1, h2⟩ := unsafeChar_spec hc
      rw [quote_plus_cons, quoteChar_not_safe h1 h2, plusToSpace_append,
        plusToSpace_hexTriples (utf8EncodeChar_lt c),
        unquoteTokens_triples (utf8EncodeChar_lt c), ih]
      simp [tokenOfChar, hc]
    · have hc' : unsafeChar c = false := by simpa using hc
      rcases unsafeChar_spec_false hc' with hs | hs
      · rw [quote_plus_cons, quoteChar_safe hs]
        have hplus : c ≠ '+' := by
          intro he
          subst he
          rw [show ('+').toNat = 43 from rfl] at hs
          simp [alwaysSafe] at hs
        have hpct : c ≠ '%' := by
          intro he
          subst he
          rw [show ('%').toNat = 37 from rfl] at hs
          simp [alwaysSafe] at hs
        have hstep : plusToSpace ([c] ++ quote_plus t) = c :: plusToSpace (quote_plus t) := by
          simp [plusToSpace, hplus]
        rw [hstep, unquoteTokens_cons_ne _ hpct, ih]
        simp [tokenOfChar, hc']
      · subst hs
        rw [quote_plus_cons, quoteChar_space]
        have hstep : plusToSpace (['+'] ++ quote_plus t) = ' ' :: plusToSpace (quote_plus t) := by
          simp [plusToSpace]
        rw [hstep, unquoteTokens_cons_ne _ (by decide), ih]
        simp [tokenOfChar, unsafeChar]

theorem decodeTokens_none_inl (c : Char) (ts : List (Sum Char Nat)) :
    decodeTokens none (Sum.inl c :: ts) = c :: decodeTokens none ts := rfl

/-- Decoding the byte tokens of one encoded character emits that character
and continues. -/
theorem decodeTokens_encode (c : Char) (ts : List (Sum Char Nat)) :
    decodeTokens none ((utf8EncodeChar c).map Sum.inr ++ ts) = c :: decodeTokens none ts := by
  have hv := char_valid c
  by_cases h1 : c.toNat < 0x80
  · rw [utf8EncodeChar_ascii h1]
    simp only [List.map_cons, List.map_nil, List.cons_append, List.nil_append]
    rw [decodeTokens]
    rw [if_pos h1, Char.ofNat_toNat]
  · by_cases h2 : c.toNat < 0x800
    · simp only [utf8EncodeChar, if_neg h1, if_pos h2, List.map_cons, List.map_nil,
        List.cons_append, List.nil_append]
      rw [decodeTokens]
      rw [if_neg (by omega), if_neg (by omega), if_pos (by omega)]
      rw [decodeTokens]
      rw [if_pos (by omega), if_pos rfl]
      have hval : (0xC0 + c.toNat / 64 - 0xC0) * 64 + (0x80 + c.toNat % 64 - 0x80) =
          c.toNat := by omega
      rw [hval, Char.ofNat_toNat]
    · by_cases h3 : c.toNat < 0x10000
      · simp only [utf8EncodeChar, if_neg h1, if_neg h2, if_pos h3, List.map_cons,
          List.map_nil, List.cons_append, List.nil_append]
        rw [decodeTokens]
        rw [if_neg (by omega), if_neg (by omega), if_neg (by omega), if_pos (by omega)]
        rw [decodeTokens]
        rw [if_pos (by constructor <;> split <;> omega), if_neg (by omega)]
        rw [decodeTokens]
        rw [if_pos (by omega), if_pos rfl]
        have hval : ((0xE0 + c.toNat / 4096 - 0xE0) * 64 + (0x80 + c.toNat / 64 % 64 - 0x80)) *
            64 + (0x80 + c.toNat % 64 - 0x80) = c.toNat := by omega
        rw [hval, Char.ofNat_toNat]
      · have h4 : c.toNat < 0x110000 := by omega
        simp only [utf8EncodeChar, if_neg h1, if_neg h2, if_neg h3, List.map_cons,
          List.map_nil, List.cons_append, List.nil_append]
        rw [decodeTokens]
        rw [if_neg (by omega), if_neg (by omega), if_neg (by omega), if_neg (by omega),
          if_pos (by omega)]
        rw [decodeTokens]
        rw [if_pos (by constructor <;> split <;> omega), if_neg (by omega)]
        rw [decodeTokens]
        rw [if_pos (by omega), if_neg (by omega)]
        rw [decodeTokens]
        rw [if_pos (by omega), if_pos rfl]
        have hval : (((0xF0 + c.toNat / 262144 - 0xF0) * 64 +
            (0x80 + c.toNat / 4096 % 64 - 0x80)) * 64 + (0x80 + c.toNat / 64 % 64 - 0x80)) *
            64 + (0x80 + c.toNat % 64 - 0x80) = c.toNat := by omega
        rw [hval, Char.ofNat_toNat]

theorem decodeTokens_tokenOf (s : Chars) :
    decodeTokens none (s.flatMap tokenOfChar) = s := by
  induction s with
  | nil => rfl
  | cons c t ih =>
    rw [List.flatMap_cons]
    by_cases hc : unsafeChar c = true
    · rw [show tokenOfChar c = (utf8EncodeChar c).map Sum.inr by simp [tokenOfChar, hc]]
      rw [decodeTokens_encode, ih]
    · rw [show tokenOfChar c = [Sum.inl c] by simp [tokenOfChar, hc]]
      simp only [List.cons_append, List.nil_append]
      rw [decodeTokens_none_inl, ih]

/-- The `parse_qsl` decoding (`+` to space, then `unquote`) is a left
inverse of `quote_plus`. -/
theorem pyUnquote_plusToSpace_quote_plus (s : Chars) :
    pyUnquote (plusToSpace (quote_plus s)) = s := by
  rw [pyUnquote, unquoteTokens_quoted, decodeTokens_tokenOf]

/-! ### `parse_qsl`, `parse_qs`, dictionaries, and `urlencode(doseq=True)`

Following CPython's `urllib.parse`: `parse_qsl` splits the query on `&`,
skips empty fields, skips fields without `=`, skips fields with an empty
value (`keep_blank_values=False`), and decodes names and values with
`.replace('+', ' ')` followed by `unquote`.  `parse_qs` groups the pairs
into an insertion-ordered dictionary mapping names to lists of values.
`urlencode(query, doseq=True)` emits `quote_plus(k)=quote_plus(v)` for
every value `v` of every key `k`, joined by `&`. -/

/-- Processing of one `name=value` field by `parse_qsl`. -/
def qslField (nv : Chars) : Option (Chars × Chars) :=
  if nv = [] then none
  else
    match splitFirst '=' nv with
    | none => none
    | some p =>
      if p.2 = [] then none
      else some (pyUnquote (plusToSpace p.1), pyUnquote (plusToSpace p.2))

/-- `urllib.parse.parse_qsl(qs)` with default arguments. -/
def parse_qsl (qs : Chars) : List (Chars × Chars) :=
  (if qs = [] then [] else qs.splitOn '&').filterMap qslField

/-- First-match association lookup (Python dict lookup; the embedded
dictionaries have distinct keys). -/
def dictGet {β : Type} : List (Chars × β) → Chars → Option β
  | [], _ => none
  | (k', v) :: rest, k => if k' = k then some v else dictGet rest k

/-- Remove every entry with the given key. -/
def dictRemove {β : Type} : List (Chars × β) → Chars → List (Chars × β)
  | [], _ => []
  | (k', v) :: rest, k => if k' = k then dictRemove rest k else (k', v) :: dictRemove rest k

/-- Lookup with default `[]`. -/
def dictGetD (d : List (Chars × List Chars)) (k : Chars) : List Chars :=
  (dictGet d k).getD []

/-- Python dict assignment `d[k] = v`: overwrite in place, or append a new
entry (insertion order preserved). -/
def dictSet {β : Type} : List (Chars × β) → Chars → β → List (Chars × β)
  | [], k, v => [(k, v)]
  | (k', v') :: rest, k, v =>
    if k' = k then (k', v) :: rest else (k', v') :: dictSet rest k v

/-- Grouping of `parse_qsl` pairs into the `parse_qs` dictionary:
first-occurrence key order, values in encounter order. -/
def groupPairs : List (Chars × Chars) → List (Chars × List Chars)
  | [] => []
  | (k, v) :: rest =>
    let g := groupPairs rest
    (k, v :: dictGetD g k) :: dictRemove g k

/-- `urllib.parse.parse_qs(qs)` with default arguments. -/
def parse_qs (qs : Chars) : List (Chars × List Chars) :=
  groupPairs (parse_qsl qs)

/-- One `(key, value)` pair per value, in dictionary iteration order: the
sequence of fields produced by `urlencode(..., doseq=True)`. -/
def flattenDict (m : List (Chars × List Chars)) : List (Chars × Chars) :=
  m.flatMap (fun kv => kv.2.map (fun v => (kv.1, v)))

/-- `urllib.parse.urlencode(m, doseq=True)` (with `quote_via=quote_plus`,
`safe=''`). -/
def urlencodeDoseq (m : List (Chars × List Chars)) : Chars :=
  List.intercalate ['&'] ((flattenDict m).map (fun kv => quote_plus kv.1 ++ '=' :: quote_plus kv.2))

theorem utf8EncodeChar_ne_nil (c : Char) : utf8EncodeChar c ≠ [] := by
  simp only [utf8EncodeChar]
  repeat' split
  all_goals simp

theorem quoteChar_ne_nil (c : Char) : quoteChar c ≠ [] := by
  by_cases hs : alwaysSafe c.toNat = true
  · rw [quoteChar_safe hs]
    simp
  · by_cases hsp : c = ' '
    · subst hsp
      rw [quoteChar_space]
      simp
    · rw [quoteChar_not_safe (by simpa using hs) hsp]
      obtain ⟨b, r, he⟩ := List.exists_cons_of_ne_nil (utf8EncodeChar_ne_nil c)
      rw [he, hexTriples_cons]
      simp

theorem quote_plus_ne_nil {s : Chars} (h : s ≠ []) : quote_plus s ≠ [] := by
  match s with
  | c :: t =>
    rw [quote_plus_cons]
    simp [List.append_eq_nil, quoteChar_ne_nil c]

theorem not_mem_quote_plus {x : Char} (h1 : x ≠ '+') (h2 : x ≠ '%')
    (h3 : alwaysSafe x.toNat = false) (s : Chars) : x ∉ quote_plus s := by
  intro hx
  rcases mem_quote_plus hx with h | h | h
  · exact h1 h
  · exact h2 h
  · rw [h3] at h
    cases h

theorem eq_ne_mem_quote_plus : ('=' : Char) ∉ quote_plus (s : Chars) := by
  exact not_mem_quote_plus (by decide) (by decide) (by decide) s

theorem amp_ne_mem_quote_plus : ('&' : Char) ∉ quote_plus (s : Chars) := by
  exact not_mem_quote_plus (by decide) (by decide) (by decide) s

theorem decodeTokens_some_ne_nil :
    ∀ (ts : List (Sum Char Nat)) (q : Nat × Nat × Nat × Nat),
      decodeTokens (some q) ts ≠ []
  | [], _ => by simp [decodeTokens]
  | Sum.inl c :: ts, _ => by simp [decodeTokens]
  | Sum.inr b :: ts, (acc, need, lo, hi) => by
    rw [decodeTokens]
    split
    · split
      · simp
      · exact decodeTokens_some_ne_nil ts _
    · simp

theorem unquoteTokens_ne_nil {l : Chars} (h : l ≠ []) : unquoteTokens l ≠ [] := by
  match l with
  | [c] => simp [unquoteTokens]
  | [c, h1] => simp [unquoteTokens]
  | c :: h1 :: h2 :: t =>
    rw [unquoteTokens_cons3]
    split
    · simp
    · simp

theorem pyUnquote_ne_nil {l : Chars} (h : l ≠ []) : pyUnquote l ≠ [] := by
  rw [pyUnquote]
  obtain ⟨tk, ts, hts⟩ := List.exists_cons_of_ne_nil (unquoteTokens_ne_nil h)
  rw [hts]
  match tk with
  | Sum.inl c =>
    rw [decodeTokens_none_inl]
    simp
  | Sum.inr b =>
    rw [decodeTokens]
    repeat' split
    all_goals first
      | exact decodeTokens_some_ne_nil ts _
      | simp

/-- A `quote_plus`-encoded field is decoded back by `qslField`. -/
theorem qslField_encoded (k v : Chars) (hv : v ≠ []) :
    qslField (quote_plus k ++ '=' :: quote_plus v) = some (k, v) := by
  have hne : quote_plus k ++ '=' :: quote_plus v ≠ [] := by
    simp [List.append_eq_nil]
  rw [qslField, if_neg hne, splitFirst_append _ eq_ne_mem_quote_plus]
  simp [quote_plus_ne_nil hv, pyUnquote_plusToSpace_quote_plus]

theorem filterMap_eq_self_of {α : Type} {l : List α} {f : α → Option α}
    (h : ∀ a ∈ l, f a = some a) : l.filterMap f = l := by
  induction l with
  | nil => rfl
  | cons a t ih =>
    rw [List.filterMap_cons, h a (List.mem_cons_self _ _),
      ih (fun x hx => h x (List.mem_cons_of_mem _ hx))]

/-- Parsing back an encoded dictionary recovers exactly its pair sequence. -/
theorem parse_qsl_urlencode (m : List (Chars × List Chars))
    (hv : ∀ kv ∈ flattenDict m, kv.2 ≠ []) :
    parse_qsl (urlencodeDoseq m) = flattenDict m := by
  by_cases hf : flattenDict m = []
  · simp only [urlencodeDoseq, hf]
    simp [parse_qsl, List.intercalate]
  · have hfields : ∀ f ∈ (flattenDict m).map
        (fun kv => quote_plus kv.1 ++ '=' :: quote_plus kv.2), ('&' : Char) ∉ f := by
      intro f hfm
      simp only [List.mem_map] at hfm
      obtain ⟨kv, _, hfe⟩ := hfm
      subst hfe
      intro hmem
      rcases List.mem_append.mp hmem with h | h
      · exact amp_ne_mem_quote_plus h
      · rcases List.mem_cons.mp h with h | h
        · cases h
        · exact amp_ne_mem_quote_plus h
    have hfne : (flattenDict m).map
        (fun kv => quote_plus kv.1 ++ '=' :: quote_plus kv.2) ≠ [] := by
      simp [hf]
    have hsplit := List.splitOn_intercalate _ '&' hfields hfne
    have hqne : urlencodeDoseq m ≠ [] := by
      intro hq
      rw [urlencodeDoseq] at hq
      rw [hq, List.splitOn_nil] at hsplit
      have : ∀ f ∈ (flattenDict m).map
          (fun kv => quote_plus kv.1 ++ '=' :: quote_plus kv.2), f ≠ ([] : Chars) := by
        intro f hfm
        simp only [List.mem_map] at hfm
        obtain ⟨kv, _, hfe⟩ := hfm
        subst hfe
        simp [List.append_eq_nil]
      have hmem : ([] : Chars) ∈ (flattenDict m).map
          (fun kv => quote_plus kv.1 ++ '=' :: quote_plus kv.2) := by
        rw [← hsplit]
        exact List.mem_cons_self _ _
      exact this [] hmem rfl
    simp only [parse_qsl]
    rw [if_neg hqne]
    simp only [urlencodeDoseq] at hsplit ⊢
    rw [hsplit, List.filterMap_map]
    apply filterMap_eq_self_of
    intro kv hkv
    show qslField (quote_plus kv.1 ++ '=' :: quote_plus kv.2) = some kv
    rw [qslField_encoded kv.1 kv.2 (hv kv hkv)]

/-! ### Dictionary lemmas -/

theorem dictGet_eq_none_of_not_mem_keys {β : Type} {d : List (Chars × β)} {k : Chars}
    (h : k ∉ d.map Prod.fst) : dictGet d k = none := by
  induction d with
  | nil => rfl
  | cons kv rest ih =>
    obtain ⟨k', v⟩ := kv
    simp only [List.map_cons, List.mem_cons] at h
    rw [dictGet, if_neg (fun he => h (Or.inl he.symm))]
    exact ih (fun hm => h (Or.inr hm))

theorem dictGet_dictRemove_ne {β : Type} {d : List (Chars × β)} {k k' : Chars}
    (h : k' ≠ k) : dictGet (dictRemove d k') k = dictGet d k := by
  induction d with
  | nil => rfl
  | cons kv rest ih =>
    obtain ⟨k0, v⟩ := kv
    by_cases h0 : k0 = k'
    · subst h0
      rw [dictRemove, if_pos rfl, dictGet, if_neg h, ih]
    · rw [dictRemove, if_neg h0, dictGet, dictGet]
      by_cases hk : k0 = k
      · rw [if_pos hk, if_pos hk]
      · rw [if_neg hk, if_neg hk, ih]

theorem dictGet_dictRemove_self {β : Type} (d : List (Chars × β)) (k : Chars) :
    dictGet (dictRemove d k) k = none := by
  induction d with
  | nil => rfl
  | cons kv rest ih =>
    obtain ⟨k0, v⟩ := kv
    by_cases h0 : k0 = k
    · rw [dictRemove, if_pos h0, ih]
    · rw [dictRemove, if_neg h0, dictGet, if_neg h0, ih]

theorem dictRemove_of_get_none {β : Type} {d : List (Chars × β)} {k : Chars}
    (h : dictGet d k = none) : dictRemove d k = d := by
  induction d with
  | nil => rfl
  | cons kv rest ih =>
    obtain ⟨k0, v⟩ := kv
    rw [dictGet] at h
    by_cases h0 : k0 = k
    · rw [if_pos h0] at h
      cases h
    · rw [if_neg h0] at h
      rw [dictRemove, if_neg h0, ih h]

theorem dictRemove_sublist {β : Type} (d : List (Chars × β)) (k : Chars) :
    (dictRemove d k).Sublist d := by
  induction d with
  | nil => simp [dictRemove]
  | cons kv rest ih =>
    obtain ⟨k0, v⟩ := kv
    rw [dictRemove]
    by_cases h0 : k0 = k
    · rw [if_pos h0]
      exact ih.cons _
    · rw [if_neg h0]
      exact ih.cons₂ _

theorem not_mem_keys_dictRemove {β : Type} (d : List (Chars × β)) (k : Chars) :
    k ∉ (dictRemove d k).map Prod.fst := by
  induction d with
  | nil => simp [dictRemove]
  | cons kv rest ih =>
    obtain ⟨k0, v⟩ := kv
    rw [dictRemove]
    by_cases h0 : k0 = k
    · rw [if_pos h0]
      exact ih
    · rw [if_neg h0]
      simp only [List.map_cons, List.mem_cons]
      intro hc
      rcases hc with hc | hc
      · exact h0 hc.symm
      · exact ih hc

theorem groupPairs_keys_nodup (l : List (Chars × Chars)) :
    ((groupPairs l).map Prod.fst).Nodup := by
  induction l with
  | nil => simp [groupPairs]
  | cons kv rest ih =>
    obtain ⟨k, v⟩ := kv
    rw [groupPairs]
    simp only [List.map_cons, List.nodup_cons]
    constructor
    · exact not_mem_keys_dictRemove _ k
    · exact ((dictRemove_sublist (groupPairs rest) k).map Prod.fst).nodup ih

theorem groupPairs_values_ne_nil {l : List (Chars × Chars)} :
    ∀ kv ∈ groupPairs l, kv.2 ≠ [] := by
  induction l with
  | nil => simp [groupPairs]
  | cons kv0 rest ih =>
    obtain ⟨k, v⟩ := kv0
    rw [groupPairs]
    intro kv hkv
    rcases List.mem_cons.mp hkv with h | h
    · subst h
      simp
    · exact ih kv ((dictRemove_sublist (groupPairs rest) k).mem h)

theorem groupPairs_map_key_append {k : Chars} {vs : List Chars} (hvs : vs ≠ [])
    (R : List (Chars × Chars)) :
    groupPairs (vs.map (fun v => (k, v)) ++ R) =
      (k, vs ++ dictGetD (groupPairs R) k) :: dictRemove (groupPairs R) k := by
  induction vs with
  | nil => cases hvs rfl
  | cons v vs ih =>
    by_cases hnil : vs = []
    · subst hnil
      simp only [List.map_cons, List.map_nil, List.nil_append, List.cons_append]
      rw [groupPairs]
    · simp only [List.map_cons, List.cons_append]
      rw [groupPairs, ih hnil]
      have hgd : dictGetD ((k, vs ++ dictGetD (groupPairs R) k) ::
          dictRemove (groupPairs R) k) k = vs ++ dictGetD (groupPairs R) k := by
        simp [dictGetD, dictGet]
      have hrm : dictRemove ((k, vs ++ dictGetD (groupPairs R) k) ::
          dictRemove (groupPairs R) k) k = dictRemove (groupPairs R) k := by
        rw [dictRemove, if_pos rfl]
        exact dictRemove_of_get_none (dictGet_dictRemove_self _ _)
      rw [hgd, hrm]

/-- Grouping the flattened pair sequence of a dictionary with distinct keys
and non-empty value lists recovers the dictionary. -/
theorem groupPairs_flattenDict {m : List (Chars × List Chars)}
    (hnodup : (m.map Prod.fst).Nodup) (hne : ∀ kv ∈ m, kv.2 ≠ []) :
    groupPairs (flattenDict m) = m := by
  induction m with
  | nil => simp [flattenDict, groupPairs]
  | cons kv rest ih =>
    obtain ⟨k, vs⟩ := kv
    simp only [flattenDict, List.flatMap_cons] 
    rw [← flattenDict]
    rw [groupPairs_map_key_append (hne (k, vs) (List.mem_cons_self _ _)) _]
    simp only [List.map_cons, List.nodup_cons] at hnodup
    have hrest : groupPairs (flattenDict rest) = rest :=
      ih hnodup.2 (fun kv hkv => hne kv (List.mem_cons_of_mem _ hkv))
    rw [hrest]
    have hkeys : k ∉ rest.map Prod.fst := hnodup.1
    have hnone : dictGet rest k = none := dictGet_eq_none_of_not_mem_keys hkeys
    rw [dictGetD, hnone]
    simp [dictRemove_of_get_none hnone]

theorem plusToSpace_ne_nil {l : Chars} (h : l ≠ []) : plusToSpace l ≠ [] := by
  simp [plusToSpace, h]

theorem qslField_value_ne_nil {nv : Chars} {kv : Chars × Chars}
    (h : qslField nv = some kv) : kv.2 ≠ [] := by
  rw [qslField] at h
  by_cases hnv : nv = []
  · rw [if_pos hnv] at h
    cases h
  · rw [if_neg hnv] at h
    match hsp : splitFirst '=' nv with
    | none => rw [hsp] at h; cases h
    | some p =>
      rw [hsp] at h
      by_cases hp2 : p.2 = []
      · simp [hp2] at h
      · simp [hp2] at h
        rw [← h]
        exact pyUnquote_ne_nil (plusToSpace_ne_nil hp2)

theorem parse_qsl_value_ne_nil {qs : Chars} :
    ∀ kv ∈ parse_qsl qs, kv.2 ≠ [] := by
  intro kv hkv
  rw [parse_qsl] at hkv
  obtain ⟨nv, _, hf⟩ := List.mem_filterMap.mp hkv
  exact qslField_value_ne_nil hf

theorem dictGet_some_mem {β : Type} {d : List (Chars × β)} {k : Chars} {v : β}
    (h : dictGet d k = some v) : (k, v) ∈ d := by
  induction d with
  | nil => cases h
  | cons kv rest ih =>
    obtain ⟨k0, v0⟩ := kv
    rw [dictGet] at h
    by_cases h0 : k0 = k
    · rw [if_pos h0] at h
      subst h0
      rw [Option.some.inj h]
      exact List.mem_cons_self _ _
    · rw [if_neg h0] at h
      exact List.mem_cons_of_mem _ (ih h)

/-- Every value collected by `groupPairs` is the value of one of the pairs. -/
theorem groupPairs_value_elems {l : List (Chars × Chars)} :
    ∀ kv ∈ groupPairs l, ∀ x ∈ kv.2, ∃ pr ∈ l, pr.2 = x := by
  induction l with
  | nil => simp [groupPairs]
  | cons hd rest ih =>
    obtain ⟨k, v⟩ := hd
    rw [groupPairs]
    intro kv hkv x hx
    rcases List.mem_cons.mp hkv with h | h
    · subst h
      simp only at hx
      rcases List.mem_cons.mp hx with h | h
      · exact ⟨(k, v), List.mem_cons_self _ _, h.symm⟩
      · rw [dictGetD] at h
        match hg : dictGet (groupPairs rest) k with
        | none => rw [hg] at h; cases h
        | some vs =>
          rw [hg] at h
          obtain ⟨pr, hpr, hx⟩ := ih (k, vs) (dictGet_some_mem hg) x h
          exact ⟨pr, List.mem_cons_of_mem _ hpr, hx⟩
    · obtain ⟨pr, hpr, hx⟩ :=
        ih kv ((dictRemove_sublist (groupPairs rest) k).mem h) x hx
      exact ⟨pr, List.mem_cons_of_mem _ hpr, hx⟩

/-! ### `dictSet` lemmas -/

theorem dictGet_dictSet_self {β : Type} (d : List (Chars × β)) (k : Chars) (v : β) :
    dictGet (dictSet d k v) k = some v := by
  induction d with
  | nil => simp [dictSet, dictGet]
  | cons kv rest ih =>
    obtain ⟨k0, v0⟩ := kv
    rw [dictSet]
    by_cases h0 : k0 = k
    · rw [if_pos h0, dictGet, if_pos h0]
    · rw [if_neg h0, dictGet, if_neg h0, ih]

theorem dictGet_dictSet_ne {β : Type} (d : List (Chars × β)) {k k' : Chars} (v : β)
    (h : k' ≠ k) : dictGet (dictSet d k v) k' = dictGet d k' := by
  induction d with
  | nil =>
    simp only [dictSet, dictGet]
    rw [if_neg (fun he => h he.symm)]
  | cons kv rest ih =>
    obtain ⟨k0, v0⟩ := kv
    rw [dictSet]
    by_cases h0 : k0 = k
    · rw [if_pos h0, dictGet, dictGet]
      by_cases hk : k0 = k'
      · exact absurd (hk.symm.trans h0) h
      · rw [if_neg hk, if_neg hk]
    · rw [if_neg h0, dictGet, dictGet]
      by_cases hk : k0 = k'
      · rw [if_pos hk, if_pos hk]
      · rw [if_neg hk, if_neg hk, ih]

theorem mem_dictSet {β : Type} {d : List (Chars × β)} {k : Chars} {v : β}
    {kv : Chars × β} (h : kv ∈ dictSet d k v) : kv ∈ d ∨ kv.2 = v := by
  induction d with
  | nil =>
    rw [dictSet] at h
    rcases List.mem_cons.mp h with h | h
    · right; rw [h]
    · cases h
  | cons kv0 rest ih =>
    obtain ⟨k0, v0⟩ := kv0
    rw [dictSet] at h
    by_cases h0 : k0 = k
    · rw [if_pos h0] at h
      rcases List.mem_cons.mp h with h | h
      · right; rw [h]
      · left; exact List.mem_cons_of_mem _ h
    · rw [if_neg h0] at h
      rcases List.mem_cons.mp h with h | h
      · left; rw [h]; exact List.mem_cons_self _ _
      · rcases ih h with h | h
        · left; exact List.mem_cons_of_mem _ h
        · right; exact h

theorem mem_keys_dictSet {β : Type} {d : List (Chars × β)} {k x : Chars} {v : β}
    (h : x ∈ (dictSet d k v).map Prod.fst) : x ∈ d.map Prod.fst ∨ x = k := by
  induction d with
  | nil =>
    simp [dictSet] at h
    right; exact h
  | cons kv0 rest ih =>
    obtain ⟨k0, v0⟩ := kv0
    rw [dictSet] at h
    by_cases h0 : k0 = k
    · rw [if_pos h0] at h
      simp only [List.map_cons, List.mem_cons] at h ⊢
      rcases h with h | h
      · left; left; exact h
      · left; right; exact h
    · rw [if_neg h0] at h
      simp only [List.map_cons, List.mem_cons] at h ⊢
      rcases h with h | h
      · left; left; exact h
      · rcases ih h with h | h
        · left; right; exact h
        · right; exact h

theorem dictSet_keys_nodup {β : Type} {d : List (Chars × β)} (k : Chars) (v : β)
    (h : (d.map Prod.fst).Nodup) : ((dictSet d k v).map Prod.fst).Nodup := by
  induction d with
  | nil => simp [dictSet]
  | cons kv0 rest ih =>
    obtain ⟨k0, v0⟩ := kv0
    simp only [List.map_cons, List.nodup_cons] at h
    rw [dictSet]
    by_cases h0 : k0 = k
    · rw [if_pos h0]
      simp only [List.map_cons, List.nodup_cons]
      exact h
    · rw [if_neg h0]
      simp only [List.map_cons, List.nodup_cons]
      constructor
      · intro hc
        rcases mem_keys_dictSet hc with hc | hc
        · exact h.1 hc
        · exact h0 hc
      · exact ih h.2

theorem flattenDict_dictSet_ne_nil (m : List (Chars × List Chars)) (p key : Chars) :
    flattenDict (dictSet m p [key]) ≠ [] := by
  induction m with
  | nil => simp [dictSet, flattenDict]
  | cons kv rest ih =>
    obtain ⟨k0, vs0⟩ := kv
    rw [dictSet]
    by_cases h0 : k0 = p
    · rw [if_pos h0]
      simp [flattenDict]
    · rw [if_neg h0]
      simp only [flattenDict, List.flatMap_cons]
      rw [← flattenDict]
      intro hc
      exact ih (List.append_eq_nil.mp hc).2

/-- Round trip used by the URL builder: re-parsing the re-encoded query
dictionary (after the key has been overwritten) gives back that
dictionary. -/
theorem parse_qs_urlencode_dictSet (q p key : Chars) (hkey : key ≠ []) :
    parse_qs (urlencodeDoseq (dictSet (parse_qs q) p [key])) =
      dictSet (parse_qs q) p [key] := by
  have hne : ∀ kv ∈ dictSet (parse_qs q) p [key], kv.2 ≠ ([] : List Chars) := by
    intro kv hkv
    rcases mem_dictSet hkv with h | h
    · exact groupPairs_values_ne_nil kv h
    · rw [h]; simp
  have hv : ∀ kv ∈ flattenDict (dictSet (parse_qs q) p [key]), kv.2 ≠ ([] : Chars) := by
    intro kv hkv
    simp only [flattenDict, List.mem_flatMap] at hkv
    obtain ⟨entry, hentry, hkv⟩ := hkv
    simp only [List.mem_map] at hkv
    obtain ⟨x, hx, hkve⟩ := hkv
    subst hkve
    rcases mem_dictSet hentry with h | h
    · have := groupPairs_value_elems entry h x hx
      obtain ⟨pr, hpr, hpx⟩ := this
      have := parse_qsl_value_ne_nil pr hpr
      rw [hpx] at this
      exact this
    · rw [h] at hx
      simp only [List.mem_singleton] at hx
      subst hx
      exact hkey
  have hnodup : ((dictSet (parse_qs q) p [key]).map Prod.fst).Nodup :=
    dictSet_keys_nodup p [key] (groupPairs_keys_nodup _)
  rw [parse_qs, parse_qsl_urlencode _ hv, groupPairs_flattenDict hnodup hne]

/-! ### `urlparse` / `urlunparse`

Embedding of CPython 3.11 `urllib.parse.urlsplit`, `urlparse`,
`urlunsplit`, `urlunparse`.  `urlsplit` removes the WHATWG-unsafe bytes
tab/CR/LF, detects an optional scheme (first `:` with an ASCII-alphabetic
first character and scheme characters before it), takes the netloc after
a leading `//` up to the first `/`, `?` or `#` (raising `ValueError` on
unbalanced square brackets), then splits off the fragment at the first
`#` and the query at the first `?`.  The NFKC netloc check
(`_checknetloc`), which can only raise for exotic non-NFKC-normalized
netlocs, is modelled as accepting. -/

def isAsciiAlphaChar (c : Char) : Bool :=
  (65 ≤ c.toNat && c.toNat ≤ 90) || (97 ≤ c.toNat && c.toNat ≤ 122)

/-- `scheme_chars`: letters, digits, `+`, `-`, `.`. -/
def isSchemeChar (c : Char) : Bool :=
  isAsciiAlphaChar c || (48 ≤ c.toNat && c.toNat ≤ 57) || c == '+' || c == '-' || c == '.'

/-- Removal of `_UNSAFE_URL_BYTES_TO_REMOVE = ['\t', '\r', '\n']`. -/
def stripUnsafe (u : Chars) : Chars :=
  u.filter (fun c => !(c == '\t' || c == '\r' || c == '\n'))

/-- `str.lower()` (ASCII letters; scheme characters are ASCII). -/
def pyLowerChars (l : Chars) : Chars :=
  l.map Char.toLower

def headAlpha : Chars → Bool
  | [] => false
  | c :: _ => isAsciiAlphaChar c

/-- The scheme-detection step of `urlsplit`. -/
def schemeSplit (u : Chars) : Chars × Chars :=
  match splitFirst ':' u with
  | some p =>
    if p.1 ≠ [] ∧ headAlpha p.1 = true ∧ p.1.all isSchemeChar then (pyLowerChars p.1, p.2)
    else ([], u)
  | none => ([], u)

/-- `_splitnetloc`: the netloc runs to the first `/`, `?` or `#`. -/
def splitNetloc (u : Chars) : Chars × Chars :=
  (u.takeWhile (fun c => !(c == '/' || c == '?' || c == '#')),
   u.dropWhile (fun c => !(c == '/' || c == '?' || c == '#')))

def netlocSplit (u : Chars) : Chars × Chars :=
  if u.take 2 = ['/', '/'] then splitNetloc (u.drop 2) else ([], u)

def fragSplit (u : Chars) : Chars × Chars :=
  match splitFirst '#' u with
  | some p => (p.1, p.2)
  | none => (u, [])

def qSplit (u : Chars) : Chars × Chars :=
  match splitFirst '?' u with
  | some p => (p.1, p.2)
  | none => (u, [])

structure UrlSplitParts where
  scheme : Chars
  netloc : Chars
  path : Chars
  query : Chars
  fragment : Chars
deriving DecidableEq

/-- `urllib.parse.urlsplit(url)`; `ValueError` is an `Except.error`. -/
def urlsplitE (url : Chars) : Except String UrlSplitParts :=
  let u0 := stripUnsafe url
  let sc := schemeSplit u0
  let nl := netlocSplit sc.2
  if ('[' ∈ nl.1 ∧ ']' ∉ nl.1) ∨ (']' ∈ nl.1 ∧ '[' ∉ nl.1) then
    Except.error "Invalid IPv6 URL"
  else
    let fr := fragSplit nl.2
    let qr := qSplit fr.1
    Except.ok ⟨sc.1, nl.1, qr.1, qr.2, fr.2⟩

structure UrlParts where
  scheme : Chars
  netloc : Chars
  path : Chars
  params : Chars
  query : Chars
  fragment : Chars
deriving DecidableEq

def usesParams : List Chars :=
  ["", "ftp", "hdl", "prospero", "http", "imap", "https", "shttp", "rtsp", "rtspu",
   "sip", "sips", "mms", "sftp", "tel"].map String.toList

def usesNetloc : List Chars :=
  ["", "ftp", "http", "gopher", "nntp", "telnet", "imap", "wais", "file", "mms",
   "https", "shttp", "snews", "prospero", "rtsp", "rtspu", "rsync", "svn", "svn+ssh",
   "sftp", "nfs", "git", "git+ssh", "ws", "wss"].map String.toList

/-- `rfind`-based split of `_splitparams`: split at the last occurrence. -/
def splitLast (sep : Char) (l : Chars) : Option (Chars × Chars) :=
  (splitFirst sep l.reverse).map (fun p => (p.2.reverse, p.1.reverse))

/-- `urllib.parse._splitparams`. -/
def splitParams (p : Chars) : Chars × Chars :=
  if '/' ∈ p then
    match splitLast '/' p with
    | some q =>
      match splitFirst ';' q.2 with
      | none => (p, [])
      | some r => (q.1 ++ '/' :: r.1, r.2)
    | none => (p, [])
  else
    match splitFirst ';' p with
    | none => (p, [])
    | some r => (r.1, r.2)

/-- `urllib.parse.urlparse(url)`. -/
def urlparseE (url : String) : Except String UrlParts :=
  match urlsplitE url.toList with
  | Except.error e => Except.error e
  | Except.ok sp =>
    let pr :=
      if sp.scheme ∈ usesParams ∧ ';' ∈ sp.path then splitParams sp.path
      else (sp.path, [])
    Except.ok ⟨sp.scheme, sp.netloc, pr.1, pr.2, sp.query, sp.fragment⟩

/-- The netloc-reattachment step of `urlunsplit`. -/
def unsplitBase (sp : UrlSplitParts) : Chars :=
  if sp.netloc ≠ [] ∨ (sp.scheme ≠ [] ∧ sp.scheme ∈ usesNetloc ∧ sp.path.take 2 ≠ ['/', '/']) then
    ['/', '/'] ++ sp.netloc ++
      (if sp.path ≠ [] ∧ sp.path.take 1 ≠ ['/'] then '/' :: sp.path else sp.path)
  else sp.path

/-- The scheme-reattachment step of `urlunsplit`. -/
def unsplitWithScheme (sp : UrlSplitParts) : Chars :=
  if sp.scheme ≠ [] then sp.scheme ++ ':' :: unsplitBase sp else unsplitBase sp

/-- `urllib.parse.urlunsplit`. -/
def urlunsplitParts (sp : UrlSplitParts) : Chars :=
  let url := unsplitWithScheme sp
  let url := if sp.query ≠ [] then url ++ '?' :: sp.query else url
  if sp.fragment ≠ [] then url ++ '#' :: sp.fragment else url

/-- `urllib.parse.urlunparse`. -/
def urlunparseParts (p : UrlParts) : Chars :=
  let url := if p.params ≠ [] then p.path ++ ';' :: p.params else p.path
  urlunsplitParts ⟨p.scheme, p.netloc, url, p.query, p.fragment⟩

/-- The query component of a URL under standard URL syntax: the part after
the first `?`, with the fragment (everything from the first `#` on)
excluded. -/
def queryOfUrl (url : String) : Chars :=
  let pre := beforeFirst '#' url.toList
  match splitFirst '?' pre with
  | some p => p.2
  | none => []

/-- The URL-construction block of `make_api_request` (temp.py lines 21-31):
`urlparse`, `parse_qs`, overwrite of the key parameter, `urlencode` with
`doseq=True`, `urlunparse`.  An `Except.error` is the `ValueError` caught
by the surrounding `except` clause. -/
def constructFinalUrl (base_url api_key key_param_name : String) : Except String String :=
  if api_key ≠ "" ∧ key_param_name ≠ "" then
    match urlparseE base_url with
    | Except.error e => Except.error e
    | Except.ok parsed_url =>
      let query_params := parse_qs parsed_url.query
      let query_params := dictSet query_params key_param_name.toList [api_key.toList]
      let new_query := urlencodeDoseq query_params
      Except.ok (String.mk (urlunparseParts { parsed_url with query := new_query }))
  else Except.ok base_url

/-! ### Facts about the URL components produced by `urlparse` -/

theorem splitFirst_eq {sep : Char} {l : Chars} {p : Chars × Chars}
    (h : splitFirst sep l = some p) : l = p.1 ++ sep :: p.2 ∧ sep ∉ p.1 := by
  induction l generalizing p with
  | nil => cases h
  | cons c cs ih =>
    rw [splitFirst] at h
    by_cases hc : c = sep
    · rw [if_pos hc] at h
      have := Option.some.inj h
      subst this
      subst hc
      simp
    · rw [if_neg hc] at h
      match hs : splitFirst sep cs with
      | none => rw [hs] at h; cases h
      | some q =>
        rw [hs] at h
        have := Option.some.inj h
        subst this
        obtain ⟨he, hn⟩ := ih hs
        constructor
        · simp only [List.cons_append]
          rw [← he]
        · simp only [List.mem_cons]
          intro hc2
          rcases hc2 with hc2 | hc2
          · exact hc (hc2.symm)
          · exact hn hc2

theorem splitFirst_none_not_mem {sep : Char} {l : Chars}
    (h : splitFirst sep l = none) : sep ∉ l := by
  induction l with
  | nil => simp
  | cons c cs ih =>
    rw [splitFirst] at h
    by_cases hc : c = sep
    · rw [if_pos hc] at h
      cases h
    · rw [if_neg hc] at h
      simp only [List.mem_cons]
      intro hm
      rcases hm with hm | hm
      · exact hc hm.symm
      · match hs : splitFirst sep cs with
        | none => exact ih hs hm
        | some q => rw [hs] at h; cases h

theorem isSchemeChar_toLower {c : Char} (h : isSchemeChar c = true) :
    isSchemeChar (Char.toLower c) = true := by
  by_cases hu : c.toNat ≥ 65 ∧ c.toNat ≤ 90
  · have hl : Char.toLower c = Char.ofNat (c.toNat + 32) := by
      simp [Char.toLower, hu]
    have hv : (c.toNat + 32).isValidChar := Or.inl (by omega)
    rw [hl]
    simp only [isSchemeChar, isAsciiAlphaChar, toNat_ofNat_of_valid hv, Bool.or_eq_true,
      Bool.and_eq_true, decide_eq_true_eq]
    omega
  · have hl : Char.toLower c = c := by
      simp [Char.toLower, hu]
    rw [hl]
    exact h

theorem isSchemeChar_ne {c : Char} (h : isSchemeChar c = true) : c ≠ '?' ∧ c ≠ '#' := by
  constructor
  · intro he
    subst he
    simp [isSchemeChar, isAsciiAlphaChar] at h
  · intro he
    subst he
    simp [isSchemeChar, isAsciiAlphaChar] at h

theorem schemeSplit_schemeChars (u : Chars) :
    ∀ c ∈ (schemeSplit u).1, isSchemeChar c = true := by
  unfold schemeSplit
  split
  · split
    · next p hcond =>
      intro c hc
      simp only [pyLowerChars, List.mem_map] at hc
      obtain ⟨c0, hc0, he⟩ := hc
      subst he
      exact isSchemeChar_toLower (List.all_eq_true.mp hcond.2.2 c0 hc0)
    · simp
  · simp

theorem netlocSplit_chars (u : Chars) :
    ∀ c ∈ (netlocSplit u).1, c ≠ '/' ∧ c ≠ '?' ∧ c ≠ '#' := by
  unfold netlocSplit
  split
  · intro c hcm
    have := List.mem_takeWhile_imp hcm
    simp at this
    exact ⟨this.1.1, this.1.2, this.2⟩
  · simp

theorem fragSplit_no_hash (u : Chars) : '#' ∉ (fragSplit u).1 := by
  unfold fragSplit
  split
  · next p hp => exact (splitFirst_eq hp).2
  · next hp => exact splitFirst_none_not_mem hp

theorem fragSplit_subset (u : Chars) : ∀ c ∈ (fragSplit u).1, c ∈ u := by
  unfold fragSplit
  split
  · next p hp =>
    intro c hc
    rw [(splitFirst_eq hp).1]
    exact List.mem_append_left _ hc
  · intro c hc
    exact hc

theorem qSplit_no_query (u : Chars) : '?' ∉ (qSplit u).1 := by
  unfold qSplit
  split
  · next p hp => exact (splitFirst_eq hp).2
  · next hp => exact splitFirst_none_not_mem hp

theorem qSplit_subset (u : Chars) : (∀ c ∈ (qSplit u).1, c ∈ u) ∧ ∀ c ∈ (qSplit u).2, c ∈ u := by
  unfold qSplit
  split
  · next p hp =>
    constructor
    · intro c hc
      rw [(splitFirst_eq hp).1]
      exact List.mem_append_left _ hc
    · intro c hc
      rw [(splitFirst_eq hp).1]
      apply List.mem_append_right
      exact List.mem_cons_of_mem _ hc
  · constructor
    · intro c hc
      exact hc
    · intro c hc
      cases hc

/-- Syntactic facts about the components of a successful `urlsplit`. -/
theorem urlsplitE_facts {url : Chars} {sp : UrlSplitParts} (h : urlsplitE url = Except.ok sp) :
    (∀ c ∈ sp.scheme, isSchemeChar c = true) ∧
      (∀ c ∈ sp.netloc, c ≠ '?' ∧ c ≠ '#') ∧
      ('?' ∉ sp.path ∧ '#' ∉ sp.path) := by
  simp only [urlsplitE] at h
  split at h
  · cases h
  · have he := Except.ok.inj h
    subst he
    refine ⟨schemeSplit_schemeChars _, ?_, ?_, ?_⟩
    · intro c hc
      have := netlocSplit_chars _ c hc
      exact ⟨this.2.1, this.2.2⟩
    · exact qSplit_no_query _
    · intro hc
      exact fragSplit_no_hash _ ((qSplit_subset _).1 _ hc)

theorem splitLast_eq {sep : Char} {l : Chars} {p : Chars × Chars}
    (h : splitLast sep l = some p) : l = p.1 ++ sep :: p.2 := by
  rw [splitLast] at h
  match hs : splitFirst sep l.reverse with
  | none => rw [hs] at h; cases h
  | some q =>
    rw [hs] at h
    have he := Option.some.inj h
    subst he
    have := (splitFirst_eq hs).1
    have hrev : l.reverse.reverse = (q.1 ++ sep :: q.2).reverse := by rw [← this]
    simp only [List.reverse_reverse, List.reverse_append, List.reverse_cons] at hrev
    rw [hrev]
    simp

theorem splitParams_subset (p : Chars) :
    (∀ c ∈ (splitParams p).1, c ∈ p) ∧ (∀ c ∈ (splitParams p).2, c ∈ p) := by
  unfold splitParams
  split
  · split
    · next q hq =>
      split
      · constructor
        · intro c hc; exact hc
        · intro c hc; cases hc
      · next r hr =>
        have hpq : p = q.1 ++ '/' :: q.2 := splitLast_eq hq
        have hqr : q.2 = r.1 ++ ';' :: r.2 := (splitFirst_eq hr).1
        constructor
        · intro c hc
          rw [hpq, hqr]
          simp only [List.mem_append, List.mem_cons] at hc ⊢
          rcases hc with hc | hc
          · left; exact hc
          · rcases hc with hc | hc
            · right; left; exact hc
            · right; right; left; exact hc
        · intro c hc
          have hc' : c ∈ r.2 := hc
          rw [hpq, hqr]
          simp only [List.mem_append, List.mem_cons]
          simp [hc']
    · constructor
      · intro c hc; exact hc
      · intro c hc; cases hc
  · split
    · constructor
      · intro c hc; exact hc
      · intro c hc; cases hc
    · next r hr =>
      have hpr : p = r.1 ++ ';' :: r.2 := (splitFirst_eq hr).1
      constructor
      · intro c hc
        rw [hpr]
        exact List.mem_append_left _ hc
      · intro c hc
        rw [hpr]
        apply List.mem_append_right
        exact List.mem_cons_of_mem _ hc

/-- Syntactic facts about the components of a successful `urlparse`: no
component before the query can contain `?` or `#`. -/
theorem urlparseE_facts {url : String} {u : UrlParts} (h : urlparseE url = Except.ok u) :
    (∀ c ∈ u.scheme, c ≠ '?' ∧ c ≠ '#') ∧
      (∀ c ∈ u.netloc, c ≠ '?' ∧ c ≠ '#') ∧
      (∀ c ∈ u.path, c ≠ '?' ∧ c ≠ '#') ∧
      (∀ c ∈ u.params, c ≠ '?' ∧ c ≠ '#') := by
  unfold urlparseE at h
  match hs : urlsplitE url.toList with
  | Except.error e => rw [hs] at h; cases h
  | Except.ok sp =>
    rw [hs] at h
    obtain ⟨hsch, hnet, hq, hh⟩ := urlsplitE_facts hs
    have hpath : ∀ c ∈ sp.path, c ≠ '?' ∧ c ≠ '#' := by
      intro c hc
      constructor
      · intro he; subst he; exact hq hc
      · intro he; subst he; exact hh hc
    have he := Except.ok.inj h
    subst he
    refine ⟨?_, hnet, ?_, ?_⟩
    · intro c hc
      exact isSchemeChar_ne (hsch c hc)
    · intro c hc
      split at hc
      · exact hpath c ((splitParams_subset sp.path).1 c hc)
      · exact hpath c hc
    · intro c hc
      split at hc
      · exact hpath c ((splitParams_subset sp.path).2 c hc)
      · cases hc

/-! ### Character facts about `urlencode` output, and the final-URL query -/

theorem intercalate_nil_eq (sep : Chars) : List.intercalate sep [] = [] := by
  simp [List.intercalate]

theorem intercalate_single (sep : Chars) (a : Chars) : List.intercalate sep [a] = a := by
  simp [List.intercalate]

theorem intercalate_cons2 (sep a b : Chars) (t : List Chars) :
    List.intercalate sep (a :: b :: t) = a ++ sep ++ List.intercalate sep (b :: t) := by
  simp [List.intercalate, List.intersperse]

theorem mem_intercalate_or {x : Char} {sep : Chars} :
    ∀ {fs : List Chars}, x ∈ List.intercalate sep fs → x ∈ sep ∨ ∃ f ∈ fs, x ∈ f := by
  intro fs
  induction fs with
  | nil =>
    rw [intercalate_nil_eq]
    intro hx
    cases hx
  | cons a rest ih =>
    match rest with
    | [] =>
      rw [intercalate_single]
      intro hx
      right
      exact ⟨a, List.mem_cons_self _ _, hx⟩
    | b :: t =>
      rw [intercalate_cons2]
      intro hx
      rcases List.mem_append.mp hx with hx | hx
      · rcases List.mem_append.mp hx with hx | hx
        · right; exact ⟨a, List.mem_cons_self _ _, hx⟩
        · left; exact hx
      · rcases ih hx with hx | ⟨f, hf, hxf⟩
        · left; exact hx
        · right; exact ⟨f, List.mem_cons_of_mem _ hf, hxf⟩

theorem mem_urlencode_classify {m : List (Chars × List Chars)} {x : Char}
    (hx : x ∈ urlencodeDoseq m) :
    x = '&' ∨ x = '=' ∨ x = '+' ∨ x = '%' ∨ alwaysSafe x.toNat = true := by
  rw [urlencodeDoseq] at hx
  rcases mem_intercalate_or hx with hx | ⟨f, hf, hxf⟩
  · left
    simpa using hx
  · simp only [List.mem_map] at hf
    obtain ⟨kv, _, hfe⟩ := hf
    subst hfe
    rcases List.mem_append.mp hxf with hx | hx
    · rcases mem_quote_plus hx with h | h | h
      · right; right; left; exact h
      · right; right; right; left; exact h
      · right; right; right; right; exact h
    · rcases List.mem_cons.mp hx with hx | hx
      · right; left; exact hx
      · rcases mem_quote_plus hx with h | h | h
        · right; right; left; exact h
        · right; right; right; left; exact h
        · right; right; right; right; exact h

theorem urlencode_no_query_hash {m : List (Chars × List Chars)} :
    ∀ x ∈ urlencodeDoseq m, x ≠ '?' ∧ x ≠ '#' := by
  intro x hx
  rcases mem_urlencode_classify hx with h | h | h | h | h
  all_goals constructor <;> intro he <;> subst he <;> cases h

theorem urlencode_ne_nil {m : List (Chars × List Chars)} (h : flattenDict m ≠ []) :
    urlencodeDoseq m ≠ [] := by
  rw [urlencodeDoseq]
  match hm : flattenDict m with
  | [] => exact absurd hm h
  | kv :: rest =>
    have hfield : quote_plus kv.1 ++ '=' :: quote_plus kv.2 ≠ [] := by
      simp [List.append_eq_nil]
    match rest with
    | [] =>
      simp only [List.map_cons, List.map_nil, intercalate_single]
      exact hfield
    | kv2 :: rest2 =>
      simp only [List.map_cons, intercalate_cons2]
      intro hc
      rw [List.append_assoc] at hc
      exact hfield (List.append_eq_nil.mp hc).1

theorem mem_unsplitBase {sp : UrlSplitParts} {c : Char} (hc : c ∈ unsplitBase sp) :
    c ∈ sp.netloc ∨ c ∈ sp.path ∨ c = '/' := by
  unfold unsplitBase at hc
  split at hc
  · rcases List.mem_append.mp hc with hc | hc
    · rcases List.mem_append.mp hc with hc | hc
      · right; right
        rcases List.mem_cons.mp hc with hc | hc
        · exact hc
        · simpa using hc
      · left; exact hc
    · split at hc
      · rcases List.mem_cons.mp hc with hc | hc
        · right; right; exact hc
        · right; left; exact hc
      · right; left; exact hc
  · right; left; exact hc

theorem mem_unsplitWithScheme {sp : UrlSplitParts} {c : Char}
    (hc : c ∈ unsplitWithScheme sp) :
    c ∈ sp.scheme ∨ c ∈ sp.netloc ∨ c ∈ sp.path ∨ c = '/' ∨ c = ':' := by
  unfold unsplitWithScheme at hc
  split at hc
  · rcases List.mem_append.mp hc with hc | hc
    · left; exact hc
    · rcases List.mem_cons.mp hc with hc | hc
      · right; right; right; right; exact hc
      · rcases mem_unsplitBase hc with h | h | h
        · right; left; exact h
        · right; right; left; exact h
        · right; right; right; left; exact h
  · rcases mem_unsplitBase hc with h | h | h
    · right; left; exact h
    · right; right; left; exact h
    · right; right; right; left; exact h

theorem toList_mk (l : Chars) : (String.mk l).toList = l := rfl

/-- Extracting the query from a reassembled URL: when no component before
the query contains `?` or `#` and the query itself contains neither, the
query of `urlunparse` is exactly the query component. -/
theorem queryOfUrl_urlunparseParts (p : UrlParts) (hq : p.query ≠ [])
    (hsch : ∀ c ∈ p.scheme, c ≠ '?' ∧ c ≠ '#')
    (hnet : ∀ c ∈ p.netloc, c ≠ '?' ∧ c ≠ '#')
    (hpath : ∀ c ∈ p.path, c ≠ '?' ∧ c ≠ '#')
    (hparams : ∀ c ∈ p.params, c ≠ '?' ∧ c ≠ '#')
    (hqc : ∀ c ∈ p.query, c ≠ '?' ∧ c ≠ '#') :
    queryOfUrl (String.mk (urlunparseParts p)) = p.query := by
  rw [urlunparseParts]
  set sp : UrlSplitParts :=
    ⟨p.scheme, p.netloc, if p.params ≠ [] then p.path ++ ';' :: p.params else p.path,
      p.query, p.fragment⟩ with hsp
  have hX : ∀ c ∈ unsplitWithScheme sp, c ≠ '?' ∧ c ≠ '#' := by
    intro c hc
    rcases mem_unsplitWithScheme hc with h | h | h | h | h
    · exact hsch c h
    · exact hnet c h
    · rw [hsp] at h
      simp only at h
      split at h
      · rcases List.mem_append.mp h with h | h
        · exact hpath c h
        · rcases List.mem_cons.mp h with h | h
          · subst h
            exact ⟨by decide, by decide⟩
          · exact hparams c h
      · exact hpath c h
    · subst h
      exact ⟨by decide, by decide⟩
    · subst h
      exact ⟨by decide, by decide⟩
  have hpre : ∀ c ∈ unsplitWithScheme sp ++ '?' :: p.query, c ≠ '#' := by
    intro c hc
    rcases List.mem_append.mp hc with h | h
    · exact (hX c h).2
    · rcases List.mem_cons.mp h with h | h
      · subst h; decide
      · exact (hqc c h).2
  have hXq : ('?' : Char) ∉ unsplitWithScheme sp := by
    intro hm
    exact (hX _ hm).1 rfl
  rw [urlunsplitParts]
  simp only
  rw [if_pos (show sp.query ≠ [] from hq)]
  by_cases hf : sp.fragment ≠ []
  · rw [if_pos hf]
    rw [queryOfUrl]
    simp only [toList_mk]
    rw [beforeFirst_append _ (fun hm => hpre _ hm rfl)]
    rw [splitFirst_append _ hXq]
  · rw [if_neg hf]
    rw [queryOfUrl]
    simp only [toList_mk]
    rw [beforeFirst_of_not_mem (fun hm => hpre _ hm rfl)]
    rw [splitFirst_append _ hXq]

theorem toList_ne_nil {s : String} (h : s ≠ "") : s.toList ≠ [] := by
  intro hc
  apply h
  cases s with
  | mk data =>
    have hd : data = [] := hc
    subst hd
    rfl

/-- The URL produced by the builder: its query re-parses to the original
query dictionary with the key parameter overwritten by `[api_key]`. -/
theorem constructFinalUrl_query {base key pname : String} {u : UrlParts}
    (hk : key ≠ "") (hp : pname ≠ "") (hparse : urlparseE base = Except.ok u) :
    ∃ fu, constructFinalUrl base key pname = Except.ok fu ∧
      parse_qs (queryOfUrl fu) = dictSet (parse_qs u.query) pname.toList [key.toList] := by
  have hrun : constructFinalUrl base key pname = Except.ok (String.mk (urlunparseParts
      { u with query := urlencodeDoseq (dictSet (parse_qs u.query) pname.toList
          [key.toList]) })) := by
    unfold constructFinalUrl
    rw [if_pos ⟨hk, hp⟩, hparse]
  refine ⟨_, hrun, ?_⟩
  have hkey' : key.toList ≠ [] := toList_ne_nil hk
  obtain ⟨hsch, hnet, hpath, hparams⟩ := urlparseE_facts hparse
  have hq : urlencodeDoseq (dictSet (parse_qs u.query) pname.toList [key.toList]) ≠ [] :=
    urlencode_ne_nil (flattenDict_dictSet_ne_nil _ _ _)
  rw [queryOfUrl_urlunparseParts
    { u with query := urlencodeDoseq (dictSet (parse_qs u.query) pname.toList [key.toList]) }
    hq hsch hnet hpath hparams urlencode_no_query_hash]
  exact parse_qs_urlencode_dictSet u.query pname.toList key.toList hkey'

/-! ### JSON values and `json.dumps(..., indent=2)`

JSON values as produced by `json.loads`: numbers are modelled as integers
(no claim involves floating-point bodies).  `dumps` with `indent=2` and
default `ensure_ascii=True` mirrors CPython's `json` module: two-space
indentation, `", "`-free separators `(',', ': ')`, and `\uXXXX` escapes
for characters outside printable ASCII (surrogate pairs above U+FFFF). -/

inductive PyJson where
  | null : PyJson
  | bool (b : Bool) : PyJson
  | num (n : Int) : PyJson
  | str (s : String) : PyJson
  | arr (xs : List PyJson) : PyJson
  | obj (members : List (String × PyJson)) : PyJson

def lbrace : Char := Char.ofNat 123

def rbrace : Char := Char.ofNat 125

def spaces (n : Nat) : Chars := List.replicate n ' '

def hexLowerChar (n : Nat) : Char :=
  if n < 10 then Char.ofNat (48 + n) else Char.ofNat (87 + n)

/-- A `\uXXXX` escape (lowercase hex, as CPython emits). -/
def u4 (n : Nat) : Chars :=
  ['\\', 'u', hexLowerChar (n / 4096 % 16), hexLowerChar (n / 256 % 16),
   hexLowerChar (n / 16 % 16), hexLowerChar (n % 16)]

def jsonEscapeChar (c : Char) : Chars :=
  if c = '"' then ['\\', '"']
  else if c = '\\' then ['\\', '\\']
  else if c = '\n' then ['\\', 'n']
  else if c = '\t' then ['\\', 't']
  else if c = '\r' then ['\\', 'r']
  else if c.toNat = 8 then ['\\', 'b']
  else if c.toNat = 12 then ['\\', 'f']
  else if c.toNat < 0x20 ∨ 0x7E < c.toNat then
    if c.toNat < 0x10000 then u4 c.toNat
    else u4 (0xD800 + (c.toNat - 0x10000) / 1024) ++ u4 (0xDC00 + (c.toNat - 0x10000) % 1024)
  else [c]

def jsonQuote (s : String) : Chars :=
  '"' :: s.toList.flatMap jsonEscapeChar ++ ['"']

mutual

def dumpsVal : PyJson → Nat → Chars
  | .null, _ => "null".toList
  | .bool true, _ => "true".toList
  | .bool false, _ => "false".toList
  | .num n, _ => (toString n).toList
  | .str s, _ => jsonQuote s
  | .arr [], _ => ['[', ']']
  | .arr (x :: xs), lvl =>
    '[' :: '\n' :: (spaces (2 * (lvl + 1)) ++ dumpsVal x (lvl + 1) ++ dumpsItems xs (lvl + 1) ++
      '\n' :: (spaces (2 * lvl) ++ [']']))
  | .obj [], _ => [lbrace, rbrace]
  | .obj (m :: ms), lvl =>
    lbrace :: '\n' :: (spaces (2 * (lvl + 1)) ++ jsonQuote m.1 ++ ':' :: ' ' ::
      (dumpsVal m.2 (lvl + 1) ++ dumpsMembers ms (lvl + 1) ++
        '\n' :: (spaces (2 * lvl) ++ [rbrace])))

def dumpsItems : List PyJson → Nat → Chars
  | [], _ => []
  | x :: xs, lvl => ',' :: '\n' :: (spaces (2 * lvl) ++ dumpsVal x lvl ++ dumpsItems xs lvl)

def dumpsMembers : List (String × PyJson) → Nat → Chars
  | [], _ => []
  | m :: ms, lvl =>
    ',' :: '\n' :: (spaces (2 * lvl) ++ jsonQuote m.1 ++ ':' :: ' ' ::
      (dumpsVal m.2 lvl ++ dumpsMembers ms lvl))

end

/-- `json.dumps(value, indent=2)`. -/
def json_dumps_indent2 (j : PyJson) : String :=
  String.mk (dumpsVal j 0)

/-- Lookup in a parsed JSON object (`json.loads` gives a dict: on duplicate
keys the last value wins). -/
def objGetLast : List (String × PyJson) → String → Option PyJson
  | [], _ => none
  | (k, v) :: rest, key =>
    match objGetLast rest key with
    | some r => some r
    | none => if k = key then some v else none

/-- `response_data.get("message", "").lower()`'s fallible prefix:
`.get` raises `AttributeError` when the value is not a dict, and `.lower()`
raises `AttributeError` when the `message` member is not a string; both are
caught by the final `except Exception` handler.  The error payload stands
for the exception's rendered text. -/
def pyGetMessage (d : PyJson) : Except String String :=
  match d with
  | .obj members =>
    match objGetLast members "message" with
    | none => Except.ok ""
    | some (.str s) => Except.ok s
    | some _ => Except.error "AttributeError"
  | _ => Except.error "AttributeError"

/-- `str.lower()` (ASCII case mapping; the substrings the validator tests
for are ASCII). -/
def pyLower (s : String) : String :=
  String.mk (s.toList.map Char.toLower)

/-! ### The `requests` oracle -/

/-- What `requests.get` yields on one URL: a raised
`requests.exceptions.RequestException` (connection error, timeout, ...)
with its rendered text, or a response. -/
structure PyResponse where
  status_code : Nat
  reason : String
  text : String
  json : Option PyJson

inductive NetOutcome where
  | raiseExc (msg : String) : NetOutcome
  | response (r : PyResponse) : NetOutcome

/-- `Response.raise_for_status()`: the `HTTPError` text for a 4xx/5xx
status, `none` when no error is raised. -/
def http_error_msg (status : Nat) (reason url : String) : Option String :=
  if 400 ≤ status ∧ status < 500 then
    some (toString status ++ " Client Error: " ++ reason ++ " for url: " ++ url)
  else if 500 ≤ status ∧ status < 600 then
    some (toString status ++ " Server Error: " ++ reason ++ " for url: " ++ url)
  else none

/-! ### `validate_api_key` (main.py) -/

/-- The fixed OpenWeatherMap validation URL of main.py line 20. -/
def test_url (api_key : String) : String :=
  "https://api.openweathermap.org/data/2.5/weather?q=NonExistentCity123&appid=" ++ api_key

/-- The message/status classification of main.py lines 39-50, applied to
the already-lowercased `message`. -/
def classify_weather_message (status_code : Nat) (message : String) : Bool × String :=
  if pyIn "invalid api key" message = true then
    (false, "Invalid API Key: OpenWeatherMap service explicitly says key is invalid.")
  else if pyIn "city not found" message = true ∧ status_code = 404 then
    (true, "API Key is valid. (Test city not found as expected).")
  else if status_code = 200 then
    (true, "API Key is valid. (Unexpected 200 OK for test city, but key seems active).")
  else
    (false, "API Key validation failed with unexpected response: " ++
      (if message ≠ "" then message else "Unknown error"))

/-- main.py `validate_api_key`.  The network is an oracle from the
requested URL to an outcome; the `try`/`except` chain appears as matches:
`RequestException` (including the `HTTPError` of `raise_for_status`),
`json.JSONDecodeError`, then `except Exception`. -/
def validate_api_key (api_key : String) (net : String → NetOutcome) : Bool × String :=
  if api_key = "" then (false, "API Key cannot be empty.")
  else
    match net (test_url api_key) with
    | NetOutcome.raiseExc e =>
      (false, "Network or API communication error: " ++ e ++
        ". Check internet, API key, or try again later.")
    | NetOutcome.response response =>
      match http_error_msg response.status_code response.reason (test_url api_key) with
      | some e =>
        (false, "Network or API communication error: " ++ e ++
          ". Check internet, API key, or try again later.")
      | none =>
        match response.json with
        | none => (false, "API returned unreadable data (not valid JSON format).")
        | some response_data =>
          match pyGetMessage response_data with
          | Except.error e => (false, "An unexpected internal error occurred: " ++ e)
          | Except.ok m => classify_weather_message response.status_code (pyLower m)

/-! ### `make_api_request` (temp.py) -/

def netErrorText (e final_url : String) : String :=
  "Network or HTTP error: " ++ e ++ "\nAttempted URL: " ++ final_url ++
    "\n\n**Troubleshooting:**\n- Ensure the URL is correct and accessible.\n- Check your internet connection.\n- Verify the API key is correct for the API's endpoint and method (e.g., query parameter name).\n- The API might require authentication via headers (not supported by this simple tool)."

def jsonErrorText (final_url text : String) : String :=
  "API returned unreadable data (not valid JSON format).\nAttempted URL: " ++ final_url ++
    "\n\n**Response Content Snippet:**\n" ++ text.take 500 ++
    "...\n\n**Troubleshooting:**\n- This API might not return JSON, or it returned an error page. Try opening the URL in a browser."

/-- The request/response part of `make_api_request` (temp.py lines 33-56)
against the already-constructed final URL. -/
def requestAndRender (final_url : String) (oc : NetOutcome) : Bool × String :=
  match oc with
  | NetOutcome.raiseExc e => (false, netErrorText e final_url)
  | NetOutcome.response response =>
    match http_error_msg response.status_code response.reason final_url with
    | some e => (false, netErrorText e final_url)
    | none =>
      match response.json with
      | none => (false, jsonErrorText final_url response.text)
      | some response_data => (true, json_dumps_indent2 response_data)

/-- temp.py `make_api_request`. -/
def make_api_request (base_url api_key key_param_name : String)
    (net : String → NetOutcome) : Bool × String :=
  if base_url = "" then (false, "API URL cannot be empty.")
  else
    match constructFinalUrl base_url api_key key_param_name with
    | Except.error e =>
      (false, "Error constructing URL with API key: " ++ e ++
        ". Please check Base URL and Key Parameter Name.")
    | Except.ok final_url => requestAndRender final_url (net final_url)

/-! ### The validator's interface state (main.py GUI logic) -/

/-- The mutable interface state of the validator: the key entry, the
status text area, and the remembered `root.valid_api_key`. -/
structure ValidatorState where
  api_key_entry : String
  status_area : String
  valid_api_key : Option String

/-- main.py `perform_validation`: validate the stripped entry, render the
result, and remember the key on success (else discard it). -/
def perform_validation (st : ValidatorState) (net : String → NetOutcome) : ValidatorState :=
  let entered_api_key := st.api_key_entry.trim
  let r := validate_api_key entered_api_key net
  if r.1 then
    { st with
      status_area := "Validation Successful: " ++ r.2 ++
        "\n\nAPI Key is considered valid for use.",
      valid_api_key := some entered_api_key }
  else
    { st with
      status_area := "Validation Failed: " ++ r.2 ++
        "\n\nAPI Key is NOT valid or a connection/certificate error occurred. It will not be used.",
      valid_api_key := none }

/-- main.py `clear_fields`: clear the entry and the status area and reset
`root.valid_api_key` to `None`. -/
def clear_fields (_st : ValidatorState) : ValidatorState :=
  { api_key_entry := "", status_area := "", valid_api_key := none }

/-! ### Substring facts for the snippet claims -/

theorem leadsWith_append (p t : Chars) : leadsWith p (p ++ t) = true := by
  induction p with
  | nil => rfl
  | cons c ps ih => simp [leadsWith, ih]

theorem occursIn_here (n t : Chars) : occursIn n (n ++ t) = true := by
  match n with
  | [] =>
    match t with
    | [] => rfl
    | c :: t' => simp [occursIn, leadsWith]
  | c :: ns =>
    simp only [occursIn, List.cons_append, Bool.or_eq_true]
    left
    exact leadsWith_append (c :: ns) t

theorem occursIn_append_left (a : Chars) {n t : Chars} (h : occursIn n t = true) :
    occursIn n (a ++ t) = true := by
  induction a with
  | nil => exact h
  | cons c a' ih => simp [occursIn, ih]

theorem pyIn_concat (a n b : String) : pyIn n (a ++ n ++ b) = true := by
  rw [pyIn]
  have he : (a ++ n ++ b).toList = a.toList ++ (n.toList ++ b.toList) := by
    simp [String.toList, String.data_append]
  rw [he]
  exact occursIn_append_left a.toList (occursIn_here n.toList b.toList)

/-! ### Helper runs of the two request functions -/

theorem make_api_request_run {base key pname fu : String} (net : String → NetOutcome)
    (hb : base ≠ "") (hfu : constructFinalUrl base key pname = Except.ok fu) :
    make_api_request base key pname net = requestAndRender fu (net fu) := by
  unfold make_api_request
  rw [if_neg hb, hfu]

/-! ## The claims -/

/-- A network oracle answering with HTTP 401 and the OpenWeatherMap
invalid-key JSON body. -/
def net401 : String → NetOutcome := fun _ => NetOutcome.response
  { status_code := 401, reason := "Unauthorized",
    text := "\x7b\"message\": \"Invalid API key\"\x7d",
    json := some (PyJson.obj [("message", PyJson.str "Invalid API key")]) }

/-- C1 counterexample: with HTTP status 401 and body
`{"message": "Invalid API key"}`, `validate_api_key` returns the
network-error Failure produced by `raise_for_status()` (which raises
`HTTPError` on 401 before the JSON message is ever inspected), not the
invalid-key Failure: its message does not begin with "Invalid API Key:". -/
theorem C1_counterexample :
    validate_api_key "abc" net401 =
      (false, "Network or API communication error: 401 Client Error: Unauthorized for url: https://api.openweathermap.org/data/2.5/weather?q=NonExistentCity123&appid=abc. Check internet, API key, or try again later.") ∧
      ("Invalid API Key:".toList.isPrefixOf (validate_api_key "abc" net401).2.toList) = false := by
  exact ⟨rfl, rfl⟩

/-- C1 (amended): the invalid-key categorization has priority over the
status-based branches only among responses that pass
`raise_for_status()` (status not 4xx/5xx).  For every such response whose
JSON `message` contains "invalid api key" after lowercasing, the result
is the invalid-key Failure, regardless of the status value; a 401 itself
is classified as a network/HTTP error by `raise_for_status()` before the
message is inspected. -/
theorem C1_invalid_key_priority (k : String) (net : String → NetOutcome)
    (r : PyResponse) (d : PyJson) (m : String)
    (hk : k ≠ "")
    (hnet : net (test_url k) = NetOutcome.response r)
    (hhttp : http_error_msg r.status_code r.reason (test_url k) = none)
    (hjson : r.json = some d)
    (hget : pyGetMessage d = Except.ok m)
    (hmsg : pyIn "invalid api key" (pyLower m) = true) :
    validate_api_key k net =
      (false, "Invalid API Key: OpenWeatherMap service explicitly says key is invalid.") := by
  unfold validate_api_key
  rw [if_neg hk, hnet]
  simp only [hhttp, hjson, hget]
  unfold classify_weather_message
  rw [if_pos hmsg]

/-- A network oracle answering with HTTP 200 and an invalid-key JSON
message (as used to witness C1's amended claim at a concrete input). -/
def net200invalid : String → NetOutcome := fun _ => NetOutcome.response
  { status_code := 200, reason := "OK",
    text := "\x7b\"message\": \"Invalid API key\"\x7d",
    json := some (PyJson.obj [("message", PyJson.str "Invalid API key")]) }

/-- C1 witness: the amended claim at the concrete input of a 200 response
carrying an invalid-key message. -/
theorem C1_witness :
    pyIn "invalid api key" (pyLower "Invalid API key") = true ∧
      validate_api_key "abc" net200invalid =
        (false, "Invalid API Key: OpenWeatherMap service explicitly says key is invalid.") :=
  ⟨rfl, C1_invalid_key_priority "abc" net200invalid _ _ "Invalid API key"
    (by decide) rfl rfl rfl rfl rfl⟩

/-- A network oracle answering with HTTP 404 and the OpenWeatherMap
city-not-found JSON body. -/
def net404city : String → NetOutcome := fun _ => NetOutcome.response
  { status_code := 404, reason := "Not Found",
    text := "\x7b\"message\": \"city not found\"\x7d",
    json := some (PyJson.obj [("message", PyJson.str "city not found")]) }

/-- C2 (code bug): with HTTP status 404 and body
`{"message": "city not found"}` — the situation main.py's own docstring
and comments call the expected success case for a valid key —
`validate_api_key` returns a Failure, because `response.raise_for_status()`
(line 27) raises `HTTPError` on the 404 before the city-not-found branch
(line 41) can run; that branch is unreachable.  The claim (and the code's
stated intent) says the result should be
`(True, "API Key is valid. (Test city not found as expected).")`. -/
theorem C2_code_behavior :
    validate_api_key "abc" net404city =
      (false, "Network or API communication error: 404 Client Error: Not Found for url: https://api.openweathermap.org/data/2.5/weather?q=NonExistentCity123&appid=abc. Check internet, API key, or try again later.") ∧
      (validate_api_key "abc" net404city).1 = false := by
  exact ⟨rfl, rfl⟩

/-- C3: for every base URL that parses with a query string in which the
key-parameter name already occurs, and every non-empty API key and
parameter name, the URL builder of `make_api_request` produces a URL whose
query maps that parameter name to exactly the single-element list
`[api_key]`, and in which every other parameter keeps exactly its original
list of values (per `parse_qs` query-string semantics). -/
theorem C3_overwrite_preserves_others (base key pname : String) (u : UrlParts)
    (hk : key ≠ "") (hp : pname ≠ "")
    (hparse : urlparseE base = Except.ok u)
    (_hocc : dictGet (parse_qs u.query) pname.toList ≠ none) :
    ∃ fu, constructFinalUrl base key pname = Except.ok fu ∧
      dictGet (parse_qs (queryOfUrl fu)) pname.toList = some [key.toList] ∧
      ∀ p', p' ≠ pname.toList →
        dictGet (parse_qs (queryOfUrl fu)) p' = dictGet (parse_qs u.query) p' := by
  obtain ⟨fu, hfu, hq⟩ := constructFinalUrl_query hk hp hparse
  refine ⟨fu, hfu, ?_, ?_⟩
  · rw [hq]
    exact dictGet_dictSet_self _ _ _
  · intro p' hne
    rw [hq]
    exact dictGet_dictSet_ne _ _ hne

/-- C3 witness: overwriting `appid` in a URL whose query already binds
`appid` and holds a repeated `unit` parameter. -/
theorem C3_witness :
    dictGet (parse_qs (⟨"https".toList, "api.example.com".toList, "/data".toList, [],
        "appid=OLD&unit=metric&unit=imperial".toList, []⟩ : UrlParts).query)
      "appid".toList ≠ none ∧
    ∃ fu, constructFinalUrl "https://api.example.com/data?appid=OLD&unit=metric&unit=imperial"
        "NEWKEY" "appid" = Except.ok fu ∧
      dictGet (parse_qs (queryOfUrl fu)) "appid".toList = some ["NEWKEY".toList] ∧
      ∀ p', p' ≠ "appid".toList →
        dictGet (parse_qs (queryOfUrl fu)) p' =
          dictGet (parse_qs (⟨"https".toList, "api.example.com".toList, "/data".toList, [],
            "appid=OLD&unit=metric&unit=imperial".toList, []⟩ : UrlParts).query) p' :=
  ⟨by decide,
   C3_overwrite_preserves_others
     "https://api.example.com/data?appid=OLD&unit=metric&unit=imperial" "NEWKEY" "appid"
     ⟨"https".toList, "api.example.com".toList, "/data".toList, [],
       "appid=OLD&unit=metric&unit=imperial".toList, []⟩
     (by decide) (by decide) rfl (by decide)⟩

/-- C4: when the API key or the key-parameter name is empty, the URL
builder returns the base URL unchanged, and (for a non-empty base URL) the
request is issued against the base URL itself. -/
theorem C4_identity_without_key (base key pname : String) (net : String → NetOutcome)
    (h : key = "" ∨ pname = "") :
    constructFinalUrl base key pname = Except.ok base ∧
      (base ≠ "" → make_api_request base key pname net =
        requestAndRender base (net base)) := by
  have hneg : ¬(key ≠ "" ∧ pname ≠ "") := by
    intro hc
    rcases h with h | h
    · exact hc.1 h
    · exact hc.2 h
  have hid : constructFinalUrl base key pname = Except.ok base := by
    unfold constructFinalUrl
    rw [if_neg hneg]
  exact ⟨hid, fun hb => make_api_request_run net hb hid⟩

/-- C4 witness: the identity at a concrete base URL with an empty key. -/
theorem C4_witness :
    constructFinalUrl "https://h/p?a=1" "" "appid" = Except.ok "https://h/p?a=1" ∧
      ("https://h/p?a=1" ≠ "" →
        make_api_request "https://h/p?a=1" "" "appid" (fun _ => NetOutcome.raiseExc "boom") =
          requestAndRender "https://h/p?a=1"
            ((fun _ => NetOutcome.raiseExc "boom") "https://h/p?a=1")) :=
  C4_identity_without_key "https://h/p?a=1" "" "appid" (fun _ => NetOutcome.raiseExc "boom")
    (Or.inl rfl)

/-- A network oracle answering with HTTP 200 and the non-JSON body
`<html>error</html>`. -/
def net200html : String → NetOutcome := fun _ => NetOutcome.response
  { status_code := 200, reason := "OK", text := "<html>error</html>", json := none }

/-- C5 counterexample: on HTTP 200 with the non-JSON body
`<html>error</html>`, the validator returns its fixed unreadable-data
message, which does NOT contain any snippet of the response body — the
snippet only exists in temp.py's variant, so the claim's "both variants"
is false for `validate_api_key`. -/
theorem C5_counterexample :
    validate_api_key "abc" net200html =
      (false, "API returned unreadable data (not valid JSON format).") ∧
    pyIn "<html>error</html>" (validate_api_key "abc" net200html).2 = false :=
  ⟨rfl, rfl⟩

theorem pyIn_jsonErrorText (fu t : String) :
    pyIn (t.take 500) (jsonErrorText fu t) = true := by
  have h : jsonErrorText fu t =
      ("API returned unreadable data (not valid JSON format).\nAttempted URL: " ++ fu ++
        "\n\n**Response Content Snippet:**\n") ++ t.take 500 ++
      "...\n\n**Troubleshooting:**\n- This API might not return JSON, or it returned an error page. Try opening the URL in a browser." := by
    simp [jsonErrorText, String.append_assoc]
  rw [h]
  exact pyIn_concat _ _ _

/-- C5 (amended): on a response passing `raise_for_status` whose body is
not parseable as JSON, both variants fail reporting unreadable/non-JSON
data, but only `make_api_request` (temp.py) includes the truncated
500-character snippet of the raw body; `validate_api_key` (main.py)
returns a fixed message with no snippet. -/
theorem C5_nonjson_snippet (api_key base keyT pnameT fu : String)
    (netV netT : String → NetOutcome) (rV rT : PyResponse)
    (hk : api_key ≠ "")
    (hnetV : netV (test_url api_key) = NetOutcome.response rV)
    (hhttpV : http_error_msg rV.status_code rV.reason (test_url api_key) = none)
    (hjsonV : rV.json = none)
    (hb : base ≠ "")
    (hfu : constructFinalUrl base keyT pnameT = Except.ok fu)
    (hnetT : netT fu = NetOutcome.response rT)
    (hhttpT : http_error_msg rT.status_code rT.reason fu = none)
    (hjsonT : rT.json = none) :
    validate_api_key api_key netV =
      (false, "API returned unreadable data (not valid JSON format).") ∧
    make_api_request base keyT pnameT netT = (false, jsonErrorText fu rT.text) ∧
    pyIn (rT.text.take 500) (make_api_request base keyT pnameT netT).2 = true := by
  have hV : validate_api_key api_key netV =
      (false, "API returned unreadable data (not valid JSON format).") := by
    unfold validate_api_key
    rw [if_neg hk, hnetV]
    simp only [hhttpV, hjsonV]
  have hT : make_api_request base keyT pnameT netT = (false, jsonErrorText fu rT.text) := by
    rw [make_api_request_run netT hb hfu, hnetT]
    simp only [requestAndRender, hhttpT, hjsonT]
  refine ⟨hV, hT, ?_⟩
  rw [hT]
  exact pyIn_jsonErrorText fu rT.text

/-- C5 witness: the amended claim at HTTP 200 with body
`<html>error</html>` for both variants. -/
theorem C5_witness :
    validate_api_key "abc" net200html =
      (false, "API returned unreadable data (not valid JSON format).") ∧
    make_api_request "https://h/p" "" "" net200html =
      (false, jsonErrorText "https://h/p" "<html>error</html>") ∧
    pyIn (("<html>error</html>" : String).take 500)
      (make_api_request "https://h/p" "" "" net200html).2 = true :=
  C5_nonjson_snippet "abc" "https://h/p" "" "" "https://h/p" net200html net200html
    { status_code := 200, reason := "OK", text := "<html>error</html>", json := none }
    { status_code := 200, reason := "OK", text := "<html>error</html>", json := none }
    (by decide) rfl rfl rfl (by decide) rfl rfl rfl rfl

/-- C6: on a response passing `raise_for_status` whose body parses as
JSON, `make_api_request` returns Success carrying the JSON pretty-printed
with 2-space indentation (`json.dumps(data, indent=2)`), whatever the
JSON's content. -/
theorem C6_json_success (base key pname fu : String) (net : String → NetOutcome)
    (r : PyResponse) (d : PyJson)
    (hb : base ≠ "")
    (hfu : constructFinalUrl base key pname = Except.ok fu)
    (hnet : net fu = NetOutcome.response r)
    (hhttp : http_error_msg r.status_code r.reason fu = none)
    (hjson : r.json = some d) :
    make_api_request base key pname net = (true, json_dumps_indent2 d) := by
  rw [make_api_request_run net hb hfu, hnet]
  simp only [requestAndRender, hhttp, hjson]

/-- A network oracle answering with HTTP 200 and a small JSON object. -/
def net200json : String → NetOutcome := fun _ => NetOutcome.response
  { status_code := 200, reason := "OK",
    text := "\x7b\"a\": 1, \"b\": [\"x\"]\x7d",
    json := some (PyJson.obj [("a", PyJson.num 1), ("b", PyJson.arr [PyJson.str "x"])]) }

/-- C6 witness: a concrete JSON object is returned pretty-printed. -/
theorem C6_witness :
    make_api_request "https://h/p" "" "" net200json =
      (true, json_dumps_indent2
        (PyJson.obj [("a", PyJson.num 1), ("b", PyJson.arr [PyJson.str "x"])])) ∧
    json_dumps_indent2
        (PyJson.obj [("a", PyJson.num 1), ("b", PyJson.arr [PyJson.str "x"])]) =
      "\x7b\n  \"a\": 1,\n  \"b\": [\n    \"x\"\n  ]\n\x7d" :=
  ⟨C6_json_success "https://h/p" "" "" "https://h/p" net200json
      { status_code := 200, reason := "OK",
        text := "\x7b\"a\": 1, \"b\": [\"x\"]\x7d",
        json := some (PyJson.obj [("a", PyJson.num 1), ("b", PyJson.arr [PyJson.str "x"])]) }
      (PyJson.obj [("a", PyJson.num 1), ("b", PyJson.arr [PyJson.str "x"])])
      (by decide) rfl rfl rfl rfl,
    rfl⟩

/-- C7: with an empty base URL, `make_api_request` fails immediately with
"API URL cannot be empty." for every key, parameter name and network —
in particular the result never depends on the network oracle, so no call
is attempted; likewise `validate_api_key` with an empty key fails
immediately with "API Key cannot be empty." for every network. -/
theorem C7_empty_input_immediate :
    (∀ key pname net, make_api_request "" key pname net =
      (false, "API URL cannot be empty.")) ∧
    (∀ net, validate_api_key "" net = (false, "API Key cannot be empty.")) :=
  ⟨fun _ _ _ => rfl, fun _ => rfl⟩

/-- C8: `clear_fields` resets the remembered valid key to `none` from any
state — in particular also from the state produced by a validation run
(`perform_validation`), successful or not. -/
theorem C8_clear_resets_key :
    (∀ st, (clear_fields st).valid_api_key = none) ∧
    (∀ st net, (clear_fields (perform_validation st net)).valid_api_key = none) :=
  ⟨fun _ => rfl, fun _ _ => rfl⟩

/-- C9: both entry points are total functions of their inputs — for every
key, URL, parameter name and network outcome (exceptions included, which
the embedding routes through the `except` arms) each returns a
`Bool × String` pair tagging success and carrying the payload or error
message.  In the embedding totality holds by construction because every
Python exception path, including the final `except Exception`, is a
match arm producing such a pair. -/
theorem C9_totality :
    (∀ k net, ∃ b s, validate_api_key k net = (b, s)) ∧
    (∀ base key pname net, ∃ b s, make_api_request base key pname net = (b, s)) :=
  ⟨fun k net => ⟨(validate_api_key k net).1, (validate_api_key k net).2, rfl⟩,
   fun base key pname net =>
     ⟨(make_api_request base key pname net).1, (make_api_request base key pname net).2, rfl⟩⟩

/-- C10: the validator lowercases the JSON `message` before the substring
checks: (1) on any response passing `raise_for_status` with a JSON body
carrying a `message`, the outcome is exactly the classification of the
LOWERCASED message; (2) whenever the lowercased message contains
"invalid api key" the classification is the invalid-key Failure; (3)
whenever it does not but contains "city not found" and the status is 404
the classification is the city-not-found Success.  Hence any casing of
the trigger phrases behaves like the lowercase one. -/
theorem C10_lowercase_classification :
    (∀ key net r d m, key ≠ "" →
        net (test_url key) = NetOutcome.response r →
        http_error_msg r.status_code r.reason (test_url key) = none →
        r.json = some d →
        pyGetMessage d = Except.ok m →
        validate_api_key key net = classify_weather_message r.status_code (pyLower m)) ∧
    (∀ st m, pyIn "invalid api key" (pyLower m) = true →
        classify_weather_message st (pyLower m) =
          (false, "Invalid API Key: OpenWeatherMap service explicitly says key is invalid.")) ∧
    (∀ m, pyIn "invalid api key" (pyLower m) = false →
        pyIn "city not found" (pyLower m) = true →
        classify_weather_message 404 (pyLower m) =
          (true, "API Key is valid. (Test city not found as expected).")) := by
  refine ⟨?_, ?_, ?_⟩
  · intro key net r d m hk hnet hhttp hjson hget
    unfold validate_api_key
    rw [if_neg hk, hnet]
    simp only [hhttp, hjson, hget]
  · intro st m h
    unfold classify_weather_message
    rw [if_pos h]
  · intro m h1 h2
    unfold classify_weather_message
    rw [h1, h2]
    simp

/-- A network oracle answering HTTP 200 with the message in mixed casing
`Invalid API Key`. -/
def netMixedCase : String → NetOutcome := fun _ => NetOutcome.response
  { status_code := 200, reason := "OK",
    text := "\x7b\"message\": \"Invalid API Key\"\x7d",
    json := some (PyJson.obj [("message", PyJson.str "Invalid API Key")]) }

/-- C10 witness: the mixed casings "Invalid API Key" and "City Not Found"
trigger their branches. -/
theorem C10_witness :
    validate_api_key "abc" netMixedCase =
      (false, "Invalid API Key: OpenWeatherMap service explicitly says key is invalid.") ∧
    classify_weather_message 404 (pyLower "City Not Found") =
      (true, "API Key is valid. (Test city not found as expected).") := by
  refine ⟨?_, ?_⟩
  · rw [C10_lowercase_classification.1 "abc" netMixedCase
      { status_code := 200, reason := "OK",
        text := "\x7b\"message\": \"Invalid API Key\"\x7d",
        json := some (PyJson.obj [("message", PyJson.str "Invalid API Key")]) }
      (PyJson.obj [("message", PyJson.str "Invalid API Key")])
      "Invalid API Key" (by decide) rfl rfl rfl rfl]
    exact C10_lowercase_classification.2.1 200 "Invalid API Key" (by decide)
  · exact C10_lowercase_classification.2.2 "City Not Found" (by decide) (by decide)
